import Mathlib

/-!
Verification development for the Cailianpress-to-Feishu pipeline
(`cls_to_feishu.py`, `fix_json.py`).

The Python source is shallowly embedded: strings are `List Char`, the
archive directory is a map from date string to a file entry, fallible
I/O is `Except`, and the vendor HTTP endpoint is an oracle giving the
outcome of each attempt.  Machine-external hash functions (sha1, md5)
are abstract parameters.  Python's `re` module is modelled only at the
single fixed pattern the source uses, with `.` matching any character
except a newline, and `\d` restricted to the ASCII digits.
-/

/-! ### Basic character-list utilities -/

/-- Substring test, modelling Python's `needle in hay` on `str`. -/
def containsSub (hay nd : List Char) : Bool :=
  if nd.isPrefixOf hay then true
  else
    match hay with
    | [] => false
    | _ :: t => containsSub t nd

/-- Code points Python treats as whitespace (`str.strip`, regex `\s`). -/
def pySpaceCodes : List Nat :=
  [9, 10, 11, 12, 13, 28, 29, 30, 31, 32, 0x85, 0xA0, 0x1680,
   0x2000, 0x2001, 0x2002, 0x2003, 0x2004, 0x2005, 0x2006, 0x2007,
   0x2008, 0x2009, 0x200A, 0x2028, 0x2029, 0x202F, 0x205F, 0x3000]

def pySpace (c : Char) : Bool := pySpaceCodes.contains c.val.toNat

/-- Python `str.strip()`. -/
def pyStrip (l : List Char) : List Char :=
  ((l.dropWhile pySpace).reverse.dropWhile pySpace).reverse

/-- Decimal digits of a natural number, most significant first
(fuel-based so that the kernel can evaluate it). -/
def natDigitsGo : Nat → Nat → List Char → List Char
  | 0, _, acc => acc
  | fuel + 1, n, acc =>
    if n < 10 then Char.ofNat (48 + n) :: acc
    else natDigitsGo fuel (n / 10) (Char.ofNat (48 + n % 10) :: acc)

def natDigits (n : Nat) : List Char := natDigitsGo (n + 1) n []

/-- Zero-padded two-digit rendering, as in `strftime` fields. -/
def pad2 (n : Nat) : List Char :=
  if n < 10 then '0' :: natDigits n else natDigits n

/-! ### TimeHelper: Asia/Shanghai civil time (fixed UTC+8 offset) -/

def beijingOffset : Int := 8 * 3600

/-- Civil date from days since the Unix epoch (Gregorian calendar). -/
def civilFromDays (z : Int) : Int × Int × Int :=
  let z' := z + 719468
  let era := z'.fdiv 146097
  let doe := z' - era * 146097
  let yoe := (doe - doe.fdiv 1460 + doe.fdiv 36524 - doe.fdiv 146096).fdiv 365
  let y := yoe + era * 400
  let doy := doe - (365 * yoe + yoe.fdiv 4 - yoe.fdiv 100)
  let mp := (5 * doy + 2).fdiv 153
  let d := doy - (153 * mp + 2).fdiv 5 + 1
  let m := mp + (if mp < 10 then 3 else -9)
  (y + (if m ≤ 2 then 1 else 0), m, d)

/-- `dt.strftime("%Y-%m-%d")` for a Unix timestamp in Beijing time. -/
def format_date_ymd (ts : Int) : List Char :=
  let days := (ts + beijingOffset).fdiv 86400
  let ymd := civilFromDays days
  natDigits ymd.1.toNat ++ '-' :: (pad2 ymd.2.1.toNat ++ '-' :: pad2 ymd.2.2.toNat)

/-- `TimeHelper.timestamp_to_hhmm`: `strftime("%H:%M")` in Beijing time. -/
def timestamp_to_hhmm (ts : Int) : List Char :=
  let s := (ts + beijingOffset).fmod 86400
  pad2 (s.fdiv 3600).toNat ++ ':' :: pad2 ((s.fmod 3600).fdiv 60).toNat

/-! ### Item records -/

/-- A raw feed item, the relevant fields of one `roll_data` entry. -/
structure RawItem where
  id : Option (List Char)
  title : List Char
  brief : List Char
  ctime : Option Int
  is_ad : Bool
deriving DecidableEq, Repr

/-- A normalized item record as built by `fetch_telegrams`. -/
structure Telegram where
  id : List Char
  content : List Char
  time : List Char
  url : List Char
  is_red : Bool
  timestamp_raw : Option Int
deriving DecidableEq, Repr

def RED_KEYWORDS : List (List Char) :=
  ["利好", "利空", "重要", "突发", "紧急", "关注", "提醒",
   "涨停", "大跌", "突破"].map String.toList

def detailBase : List Char := "https://www.cls.cn/detail/".toList

/-- Python `str(item.get("id"))`: a missing id renders as `"None"`. -/
def str_of_id : Option (List Char) → List Char
  | some s => s
  | none => "None".toList

/-- Python truthiness of the stored timestamp: present and nonzero. -/
def ts_truthy : Option Int → Option Int
  | some n => if n = 0 then none else some n
  | none => none

/-- Per-item normalization inside `CailianpressAPI.fetch_telegrams`
(lines 102-119): ads are skipped, `content` is brief-or-title, the
timestamp is parsed defensively, the url is derived from the id, and
`is_red` is a keyword substring search over title ++ content. -/
def process_item (r : RawItem) : Option Telegram :=
  if r.is_ad then none
  else
    let item_id := str_of_id r.id
    let content := if r.brief = [] then r.title else r.brief
    let ts_int := ts_truthy r.ctime
    some
      { id := item_id
        content := content
        time := match ts_int with
                | some n => timestamp_to_hhmm n
                | none => []
        url := if item_id = [] then [] else detailBase ++ item_id
        is_red := RED_KEYWORDS.any (fun k => containsSub (r.title ++ content) k)
        timestamp_raw := ts_int }

/-! ### CailianpressAPI: fetch with retries -/

structure ApiData where
  roll_data : Option (List RawItem)
deriving DecidableEq, Repr

structure ApiBody where
  error : Option Int
  data_ : Option ApiData
deriving DecidableEq, Repr

/-- Outcome of one HTTP attempt: a `requests` exception (network
failure or non-success status), a JSON decode failure, or a parsed
body. -/
inductive ApiAttempt where
  | requestError : ApiAttempt
  | jsonDecodeError : ApiAttempt
  | parsed : ApiBody → ApiAttempt
deriving DecidableEq, Repr

/-- The guard `data.get("error") == 0 and data.get("data") and
data["data"].get("roll_data")`: yields the items exactly when the
status field is zero and the nested items array is present and
non-empty. -/
def api_guard (b : ApiBody) : Option (List RawItem) :=
  match b.error, b.data_ with
  | some 0, some d =>
    match d.roll_data with
    | some l => if l = [] then none else some l
    | none => none
  | _, _ => none

def RETRY_ATTEMPTS : Nat := 3
def RETRY_DELAY : Nat := 5

/-- The retry loop of `fetch_telegrams`, returning the result list
together with the list of sleep durations performed between attempts.
`n` counts the attempts still available; `i` is the attempt index. -/
def fetch_aux (o : Nat → ApiAttempt) : Nat → Nat → List Telegram × List Nat
  | 0, _ => ([], [])
  | n + 1, i =>
    match o i with
    | .parsed b =>
      match api_guard b with
      | some l => (l.filterMap process_item, [])
      | none =>
        let p := fetch_aux o n (i + 1)
        (p.1, (if n ≠ 0 then [RETRY_DELAY] else []) ++ p.2)
    | _ =>
      let p := fetch_aux o n (i + 1)
      (p.1, (if n ≠ 0 then [RETRY_DELAY] else []) ++ p.2)

/-- `CailianpressAPI.fetch_telegrams` over an attempt oracle. -/
def fetch_telegrams (o : Nat → ApiAttempt) : List Telegram × List Nat :=
  fetch_aux o RETRY_ATTEMPTS 0

/-- An attempt that the code treats as failed: an exception, or a
parsed body rejected by the response-shape guard. -/
def attemptFails : ApiAttempt → Prop
  | .parsed b => api_guard b = none
  | _ => True

/-! ### Request signature -/

def lookup_param : List (String × String) → String → Option String
  | [], _ => none
  | (k, v) :: rest, key => if k = key then some v else lookup_param rest key

/-- Code-point order on strings, as Python compares `str`. -/
def str_le (a b : String) : Prop := a.data ≤ b.data

instance : DecidableRel str_le := fun a b =>
  inferInstanceAs (Decidable (a.data ≤ b.data))

instance : IsTotal String str_le := ⟨fun a b => le_total a.data b.data⟩

instance : IsTrans String str_le :=
  ⟨fun _ _ _ h1 h2 => le_trans (α := List Char) h1 h2⟩

instance : IsAntisymm String str_le :=
  ⟨fun a b h1 h2 => by
    cases a; cases b
    exact congrArg String.mk (le_antisymm (α := List Char) h1 h2)⟩

/-- `sorted(params.keys())`.  A stable sort is a unique function of
the key order, so insertion sort models Python's sort exactly. -/
def sorted_keys (params : List (String × String)) : List String :=
  List.insertionSort str_le (params.map Prod.fst)

/-- `"&".join(f"{key}={params[key]}" for key in sorted_keys)`. -/
def params_string (params : List (String × String)) : String :=
  String.intercalate "&"
    ((sorted_keys params).map (fun k => k ++ "=" ++ (lookup_param params k).getD ""))

/-- `CailianpressAPI._generate_signature`, with the two hash stages
(`hashlib.sha1(...).hexdigest()` and `hashlib.md5(...).hexdigest()`)
abstract. -/
def generate_signature (sha1_hex md5_hex : String → String)
    (params : List (String × String)) : String :=
  md5_hex (sha1_hex (params_string params))

def APP_PARAMS : List (String × String) :=
  [("app_name", "CailianpressWeb"), ("os", "web"), ("sv", "7.7.5")]

/-- `CailianpressAPI._get_request_params`: the signature is computed
over `APP_PARAMS` before the `sign` key is added. -/
def get_request_params (sha1_hex md5_hex : String → String) :
    List (String × String) :=
  APP_PARAMS ++ [("sign", generate_signature sha1_hex md5_hex APP_PARAMS)]

/-! ### Archive file system model

The output directory is a map from the date string (the variable part
of the `cls_<date>.md` file name) to a file entry.  Entries carry
failure-injection flags so that read and write errors can be
modelled. -/

inductive FileEntry where
  | absent : FileEntry
  | file : List Char → Bool → Bool → FileEntry
deriving DecidableEq, Repr

def FileEntry.readFails : FileEntry → Bool
  | .file _ rf _ => rf
  | .absent => false

def FileEntry.writeFails : FileEntry → Bool
  | .file _ _ wf => wf
  | .absent => false

def fs_update (fs : List Char → FileEntry) (d : List Char) (e : FileEntry) :
    List Char → FileEntry :=
  fun x => if x = d then e else fs x

/-! ### Id extraction: `re.findall(r'\(https://www.cls.cn/detail/(\d+)\)', content)`

The two `.` in the pattern are unescaped, so they match any character
except a newline.  `matchDetail` tries the pattern at the head of the
list, returning the captured digit group and the remainder after the
match; `scanIds` is the non-overlapping left-to-right scan of
`findall`. -/

def patIds (c1 c2 : Char) (d : List Char) : List Char :=
  '(' :: 'h' :: 't' :: 't' :: 'p' :: 's' :: ':' :: '/' :: '/' :: 'w' :: 'w' :: 'w' :: c1 ::
  'c' :: 'l' :: 's' :: c2 :: 'c' :: 'n' :: '/' :: 'd' :: 'e' :: 't' :: 'a' :: 'i' :: 'l' :: '/' ::
  (d ++ [')'])

def expectChars : List Char → List Char → Option (List Char)
  | [], l => some l
  | _ :: _, [] => none
  | p :: ps, c :: cs => if c = p then expectChars ps cs else none

def anyNotNl : List Char → Option (List Char)
  | [] => none
  | c :: cs => if c = '\n' then none else some cs

def matchDetail (l : List Char) : Option (List Char × List Char) :=
  match expectChars "(https://www".toList l with
  | none => none
  | some r1 =>
    match anyNotNl r1 with
    | none => none
    | some r2 =>
      match expectChars "cls".toList r2 with
      | none => none
      | some r3 =>
        match anyNotNl r3 with
        | none => none
        | some r4 =>
          match expectChars "cn/detail/".toList r4 with
          | none => none
          | some r5 =>
            if r5.takeWhile Char.isDigit = [] then none
            else
              match r5.dropWhile Char.isDigit with
              | ')' :: r6 => some (r5.takeWhile Char.isDigit, r6)
              | _ => none

theorem expectChars_length : ∀ {p l r : List Char},
    expectChars p l = some r → r.length ≤ l.length := by
  intro p
  induction p with
  | nil =>
    intro l r h
    simp only [expectChars, Option.some.injEq] at h
    subst h; exact Nat.le_refl _
  | cons a ps ih =>
    intro l r h
    cases l with
    | nil => simp [expectChars] at h
    | cons c cs =>
      simp only [expectChars] at h
      split at h
      · exact Nat.le_trans (ih h) (by simp)
      · simp at h

theorem anyNotNl_length {l r : List Char} (h : anyNotNl l = some r) :
    r.length < l.length := by
  cases l with
  | nil => simp [anyNotNl] at h
  | cons c cs =>
    simp only [anyNotNl] at h
    split at h
    · simp at h
    · cases h; simp

theorem dropWhile_length (p : Char → Bool) (l : List Char) :
    (l.dropWhile p).length ≤ l.length := by
  induction l with
  | nil => simp
  | cons c cs ih =>
    by_cases h : p c
    · rw [List.dropWhile_cons, if_pos h]
      exact Nat.le_trans ih (by simp)
    · rw [List.dropWhile_cons, if_neg h]

theorem matchDetail_length {l d rem : List Char}
    (h : matchDetail l = some (d, rem)) : rem.length < l.length := by
  unfold matchDetail at h
  split at h
  · exact absurd h (by simp)
  next r1 h1 =>
    split at h
    · exact absurd h (by simp)
    next r2 h2 =>
      split at h
      · exact absurd h (by simp)
      next r3 h3 =>
        split at h
        · exact absurd h (by simp)
        next r4 h4 =>
          split at h
          · exact absurd h (by simp)
          next r5 h5 =>
            split at h
            · exact absurd h (by simp)
            · split at h
              next r6 h6 =>
                have e0 : rem = r6 := by
                  simpa using congrArg (fun p => (Option.map Prod.snd p).getD [])
                    h.symm
                have e1 := expectChars_length h1
                have e2 := anyNotNl_length h2
                have e3 := expectChars_length h3
                have e4 := anyNotNl_length h4
                have e5 := expectChars_length h5
                have e6 : rem.length + 1 ≤ r5.length := by
                  have hd := dropWhile_length Char.isDigit r5
                  rw [h6] at hd
                  rw [e0]
                  simpa using hd
                omega
              next => exact absurd h (by simp)

def scanIdsGo : Nat → List Char → List (List Char)
  | 0, _ => []
  | _ + 1, [] => []
  | fuel + 1, c :: rest =>
    match matchDetail (c :: rest) with
    | some p => p.1 :: scanIdsGo fuel p.2
    | none => scanIdsGo fuel rest

def scanIds (l : List Char) : List (List Char) := scanIdsGo l.length l

/-- `TelegramFileManager.get_existing_ids_for_date` (the date string
stands for the file path): empty set when the file does not exist,
otherwise the ids extracted by the regular-expression scan.  A read
failure raises (no handler in the source). -/
def get_existing_ids_for_date (fs : List Char → FileEntry) (date : List Char) :
    Except Unit (List (List Char)) :=
  match fs date with
  | .absent => .ok []
  | .file _ true _ => .error ()
  | .file c false _ => .ok (scanIds c)

/-! ### File line rendering and splitting -/

/-- `"\n".join(lines)`. -/
def joinLines : List (List Char) → List Char
  | [] => []
  | [x] => x
  | x :: y :: rest => x ++ '\n' :: joinLines (y :: rest)

/-- `content.split('\n')`. -/
def splitLines (l : List Char) : List (List Char) :=
  match l with
  | [] => [[]]
  | c :: rest =>
    if c = '\n' then [] :: splitLines rest
    else
      match splitLines rest with
      | [] => [[c]]
      | h :: t => (c :: h) :: t

def red_header : List Char := "**🔴 重要电报**".toList
def normal_header : List Char := "**📰 一般电报**".toList
def FILE_SEPARATOR : List Char := "━━━━━━━━━━━━━━━━━━━".toList

/-- The fresh-file template of `append_new_telegrams` (line 200). -/
def templateLines : List (List Char) :=
  [red_header, [], FILE_SEPARATOR, [], normal_header, []]

/-- `TelegramFileManager._format_telegram_lines_for_insertion`,
content line only. -/
def format_line (t : Telegram) : List Char :=
  if t.url = [] then
    if t.is_red then
      "  - [".toList ++ t.time ++ "] **".toList ++ t.content ++ "**".toList
    else
      "  - [".toList ++ t.time ++ "] ".toList ++ t.content
  else
    if t.is_red then
      "  - [".toList ++ t.time ++ "] **[".toList ++ t.content ++ "](".toList ++
        t.url ++ ")**".toList
    else
      "  - [".toList ++ t.time ++ "] [".toList ++ t.content ++ "](".toList ++
        t.url ++ ")".toList

/-- The full return value of the formatter: the content line followed
by one blank line. -/
def format_telegram_lines (t : Telegram) : List (List Char) :=
  [format_line t, []]

/-! ### Section insertion (`append_new_telegrams`, lines 202-224) -/

/-- Python `lines[i:i] = xs` (also covering `lines.insert(i, x)` as the
singleton case); slice indices clamp at the list length. -/
def insert_at (i : Nat) (xs lines : List (List Char)) : List (List Char) :=
  lines.take i ++ xs ++ lines.drop i

/-- The `try` branch shared by both sections: find the header line,
optionally insert one blank line directly under it, then splice the
new lines in.  `none` models the `ValueError` of `list.index`. -/
def insert_section_try (hdr : List Char) (newLines lines : List (List Char)) :
    Option (List (List Char)) :=
  match lines.findIdx? (fun x => x = hdr) with
  | none => none
  | some i0 =>
    if i0 + 1 < lines.length ∧ pyStrip (lines.getD (i0 + 1) []) ≠ [] then
      some (insert_at (i0 + 2) newLines (insert_at (i0 + 1) [[]] lines))
    else some (insert_at (i0 + 2) newLines lines)

/-- Insertion of the normal section; the second component records
whether `saved_any_new` was set by this block (only in the `try`
branch). -/
def insert_normal (newNormal lines : List (List Char)) :
    List (List Char) × Bool :=
  if newNormal = [] then (lines, false)
  else
    match insert_section_try normal_header newNormal lines with
    | some l => (l, true)
    | none =>
      (lines ++ [[], FILE_SEPARATOR, [], normal_header, []] ++ newNormal, false)

/-- Insertion of the red section; the fallback prepends the header at
the top of the file. -/
def insert_red (newRed lines : List (List Char)) :
    List (List Char) × Bool :=
  if newRed = [] then (lines, false)
  else
    match insert_section_try red_header newRed lines with
    | some l => (l, true)
    | none => (red_header :: [] :: (newRed ++ lines), false)

/-! ### Grouping by date and the merge -/

/-- Append the item to the group of its key, preserving first-seen
key order (Python dict insertion order). -/
def insert_group : List (List Char × List Telegram) → List Char → Telegram →
    List (List Char × List Telegram)
  | [], d, t => [(d, [t])]
  | (k, ts) :: rest, d, t =>
    if k = d then (k, ts ++ [t]) :: rest
    else (k, ts) :: insert_group rest d t

/-- Grouping loop of `append_new_telegrams` (lines 177-183): items
with a falsy timestamp are skipped. -/
def group_by_date (l : List Telegram) : List (List Char × List Telegram) :=
  l.foldl
    (fun acc t =>
      match ts_truthy t.timestamp_raw with
      | none => acc
      | some n => insert_group acc (format_date_ymd n) t)
    []

/-- The descending key order of `new_telegrams.sort(key=lambda x:
x.get("timestamp_raw", 0), reverse=True)`. -/
def telegram_desc (a b : Telegram) : Prop :=
  b.timestamp_raw.getD 0 ≤ a.timestamp_raw.getD 0

instance : DecidableRel telegram_desc := fun a b =>
  inferInstanceAs (Decidable (_ ≤ _))

instance : IsTotal Telegram telegram_desc := ⟨fun a b => le_total _ _⟩

instance : IsTrans Telegram telegram_desc :=
  ⟨fun _ _ _ h1 h2 => le_trans h2 h1⟩

/-- The sort itself: a stable sort is a unique function of the key
order, so insertion sort models Python's stable `list.sort` exactly. -/
def sort_desc (l : List Telegram) : List Telegram :=
  List.insertionSort telegram_desc l

/-- The in-memory line transformation of the per-date loop: format the
flagged and normal batches, splice the normal lines under their header
first, then the flagged lines under theirs; the second component is
the `saved_any_new` contribution. -/
def merge_lines (items : List Telegram) (lines0 : List (List Char)) :
    List (List Char) × Bool :=
  let red_lines :=
    ((items.filter (fun t => t.is_red)).map format_telegram_lines).flatten
  let normal_lines :=
    ((items.filter (fun t => !t.is_red)).map format_telegram_lines).flatten
  let st1 := insert_normal normal_lines lines0
  let st2 := insert_red red_lines st1.1
  (st2.1, st1.2 || st2.2)

/-- The body of the per-date loop (lines 186-231).  The read of an
existing file is unguarded in the source, so a read failure escapes as
an exception; the write is guarded, so a write failure leaves the file
unchanged and the loop continues. -/
def process_date_group (fsb : (List Char → FileEntry) × Bool)
    (g : List Char × List Telegram) :
    Except Unit ((List Char → FileEntry) × Bool) :=
  match fsb.1 g.1 with
  | .file _ true _ => .error ()
  | .file c false true =>
    .ok (fsb.1, fsb.2 || (merge_lines g.2 (splitLines c)).2)
  | .file c false false =>
    .ok (fs_update fsb.1 g.1
      (.file (joinLines (merge_lines g.2 (splitLines c)).1) false false),
      fsb.2 || (merge_lines g.2 (splitLines c)).2)
  | .absent =>
    .ok (fs_update fsb.1 g.1
      (.file (joinLines (merge_lines g.2 templateLines).1) false false),
      fsb.2 || (merge_lines g.2 templateLines).2)

/-- `TelegramFileManager.append_new_telegrams`. -/
def append_new_telegrams (fs : List Char → FileEntry)
    (new_telegrams : List Telegram) :
    Except Unit ((List Char → FileEntry) × Bool) :=
  if new_telegrams = [] then .ok (fs, false)
  else
    (group_by_date (sort_desc new_telegrams)).foldlM process_date_group (fs, false)

/-! ### The main pipeline step (`main`, lines 986-1000) -/

/-- Steps 2-4 of `main` for one run: compute the existing ids of the
run date's file, filter the fetched batch down to the "new" items,
append them, and hand exactly that list to the Notifier.  Returns the
resulting directory state, the list handed to the Notifier, and
`has_new_content`. -/
def run_once (fs : List Char → FileEntry) (today : List Char)
    (fetched : List Telegram) :
    Except Unit ((List Char → FileEntry) × List Telegram × Bool) :=
  match get_existing_ids_for_date fs today with
  | .error e => .error e
  | .ok existing_ids =>
    let new_telegrams := fetched.filter
      (fun t => decide (t.id ≠ []) && decide (t.id ∉ existing_ids) &&
        decide (ts_truthy t.timestamp_raw ≠ none))
    match append_new_telegrams fs new_telegrams with
    | .error e => .error e
    | .ok p => .ok (p.1, new_telegrams, p.2)

/-! ### JSONFixer (`fix_json.py`) -/

/-- Python `str.replace(pat, rep)`: left-to-right, non-overlapping,
replacements are not rescanned. -/
def replace_seq (pat rep : List Char) (l : List Char) : List Char :=
  if hp : pat = [] then l
  else
    if hpre : pat.isPrefixOf l then rep ++ replace_seq pat rep (l.drop pat.length)
    else
      match l with
      | [] => []
      | c :: t => c :: replace_seq pat rep t
  termination_by l.length
  decreasing_by
  · have hle : pat.length ≤ l.length := by
      have h' : pat <+: l := by
        have := @List.isPrefixOf_iff_prefix Char _ _ pat l
        exact this.mp hpre
      exact h'.length_le
    have hpos : 0 < pat.length := List.length_pos.mpr hp
    have hlpos : 0 < l.length := Nat.lt_of_lt_of_le hpos hle
    simp only [List.length_drop]
    omega
  · simp

/-- The control-character class `[\x00-\x1f\x7f-\x9f]`. -/
def is_ctrl (c : Char) : Bool :=
  c.val.toNat ≤ 0x1f || (0x7f ≤ c.val.toNat && c.val.toNat ≤ 0x9f)

/-- `re.sub(r'\s+', ' ', text)`: each maximal whitespace run becomes a
single space. -/
def collapse_ws (l : List Char) : List Char :=
  match l with
  | [] => []
  | c :: t =>
    if pySpace c then ' ' :: collapse_ws (t.dropWhile pySpace)
    else c :: collapse_ws t
  termination_by l.length
  decreasing_by
  · have := dropWhile_length pySpace t
    simp only [List.length_cons]
    omega
  · simp

/-- `JSONFixer.clean_text` on the character list. -/
def clean_chars (l : List Char) : List Char :=
  pyStrip (collapse_ws
    (replace_seq ['\''] ['\\', '\'']
      (replace_seq ['"'] ['\\', '"']
        ((replace_seq ['\t'] [' ']
          (replace_seq ['\n'] [' ']
            (replace_seq ['\r'] [' ']
              (replace_seq ['\r', '\n'] [' '] l)))).map
          (fun c => if is_ctrl c then ' ' else c)))))

/-- `JSONFixer.clean_text`. -/
def clean_text (s : String) : String := ⟨clean_chars s.data⟩

/-! JSON-like values (`dict`, `list`, `str` and the remaining leaf
kinds), with the nested containers as mutual inductives. -/
mutual
inductive JValue where
  | jnull : JValue
  | jbool : Bool → JValue
  | jnum : Int → JValue
  | jstr : String → JValue
  | jarr : JArr → JValue
  | jobj : JObj → JValue
inductive JArr where
  | anil : JArr
  | acons : JValue → JArr → JArr
inductive JObj where
  | onil : JObj
  | ocons : String → JValue → JObj → JObj
end

/-! `JSONFixer.clean_data_recursive`: dict and list nodes are rebuilt
with cleaned children (keys untouched), string leaves go through
`clean_text`, all other leaves are returned as-is. -/
mutual
def clean_data_recursive : JValue → JValue
  | .jobj kvs => .jobj (clean_obj_entries kvs)
  | .jarr xs => .jarr (clean_arr_entries xs)
  | .jstr s => .jstr (clean_text s)
  | v => v
def clean_arr_entries : JArr → JArr
  | .anil => .anil
  | .acons v rest => .acons (clean_data_recursive v) (clean_arr_entries rest)
def clean_obj_entries : JObj → JObj
  | .onil => .onil
  | .ocons k v rest => .ocons k (clean_data_recursive v) (clean_obj_entries rest)
end

/-! Spec-side definition for the refinement comparison: the
structure-preserving map that rewrites exactly the string leaves by
`f` and leaves everything else (keys, order, non-string leaves)
unchanged. -/
mutual
def map_string_leaves (f : String → String) : JValue → JValue
  | .jobj kvs => .jobj (map_string_leaves_obj f kvs)
  | .jarr xs => .jarr (map_string_leaves_arr f xs)
  | .jstr s => .jstr (f s)
  | v => v
def map_string_leaves_arr (f : String → String) : JArr → JArr
  | .anil => .anil
  | .acons v rest => .acons (map_string_leaves f v) (map_string_leaves_arr f rest)
def map_string_leaves_obj (f : String → String) : JObj → JObj
  | .onil => .onil
  | .ocons k v rest =>
    .ocons k (map_string_leaves f v) (map_string_leaves_obj f rest)
end

/-- The keys of a dict node, in order. -/
def obj_keys : JObj → List String
  | .onil => []
  | .ocons k _ rest => k :: obj_keys rest

/-- The length of a list node. -/
def arr_len : JArr → Nat
  | .anil => 0
  | .acons _ rest => arr_len rest + 1

/-! ### Lemmas about the id-extraction scan -/

theorem expectChars_eq : ∀ {p l r : List Char},
    expectChars p l = some r ↔ l = p ++ r := by
  intro p
  induction p with
  | nil =>
    intro l r
    simp [expectChars]
  | cons a ps ih =>
    intro l r
    cases l with
    | nil => simp [expectChars]
    | cons c cs =>
      simp only [expectChars, List.cons_append, List.cons.injEq]
      constructor
      · intro h
        split at h
        next he => exact ⟨he, ih.mp h⟩
        next => simp at h
      · intro h
        rw [if_pos h.1]
        exact ih.mpr h.2

theorem anyNotNl_eq {l r : List Char} :
    anyNotNl l = some r ↔ ∃ c, l = c :: r ∧ c ≠ '\n' := by
  cases l with
  | nil => simp [anyNotNl]
  | cons c cs =>
    simp only [anyNotNl]
    constructor
    · intro h
      split at h
      · simp at h
      next hc => cases h; exact ⟨c, rfl, hc⟩
    · rintro ⟨c', hc', hne⟩
      cases hc'
      rw [if_neg hne]

theorem takeWhile_all_append {p : Char → Bool} {d : List Char} {c : Char}
    (hall : d.all p = true) (hc : p c = false) (r : List Char) :
    (d ++ c :: r).takeWhile p = d ∧ (d ++ c :: r).dropWhile p = c :: r := by
  induction d with
  | nil => simp [List.takeWhile, List.dropWhile, hc]
  | cons a as ih =>
    simp only [List.all_cons, Bool.and_eq_true] at hall
    have := ih hall.2
    simp [List.takeWhile_cons, List.dropWhile_cons, hall.1, this.1, this.2]

theorem paren_not_digit : Char.isDigit '(' = false := by decide

theorem digit_ne_paren {c : Char} (h : c.isDigit = true) : c ≠ '(' := by
  intro he; rw [he] at h; simp [paren_not_digit] at h

/-- Soundness of one pattern match: a successful match decomposes the
input into the pattern followed by the remainder. -/
theorem matchDetail_sound {l d rem : List Char}
    (h : matchDetail l = some (d, rem)) :
    ∃ c1 c2, l = patIds c1 c2 d ++ rem ∧ d ≠ [] ∧ d.all Char.isDigit = true ∧
      c1 ≠ '\n' ∧ c2 ≠ '\n' := by
  unfold matchDetail at h
  split at h
  · exact absurd h (by simp)
  next r1 h1 =>
    split at h
    · exact absurd h (by simp)
    next r2 h2 =>
      split at h
      · exact absurd h (by simp)
      next r3 h3 =>
        split at h
        · exact absurd h (by simp)
        next r4 h4 =>
          split at h
          · exact absurd h (by simp)
          next r5 h5 =>
            split at h
            next hds => exact absurd h (by simp)
            next hds =>
              split at h
              next r6 h6 =>
                rw [Option.some.injEq, Prod.mk.injEq] at h
                obtain ⟨hd, hrem⟩ := h
                obtain ⟨c1, hr1, hc1⟩ := anyNotNl_eq.mp h2
                obtain ⟨c2, hr3, hc2⟩ := anyNotNl_eq.mp h4
                refine ⟨c1, c2, ?_, ?_, ?_, hc1, hc2⟩
                · have hl1 := expectChars_eq.mp h1
                  have hl3 := expectChars_eq.mp h3
                  have hl5 := expectChars_eq.mp h5
                  have hr5 : r5 = d ++ ')' :: rem := by
                    have haux := List.takeWhile_append_dropWhile (p := Char.isDigit)
                      (l := r5)
                    rw [h6, hd, hrem] at haux
                    exact haux.symm
                  rw [hl1, hr1, hl3, hr3, hl5, hr5]
                  simp [patIds]
                · rw [← hd]; exact hds
                · rw [← hd]; exact List.all_takeWhile
              next => exact absurd h (by simp)

/-- Completeness of one pattern match at the start of the input. -/
theorem matchDetail_complete {c1 c2 : Char} {d : List Char}
    (hd : d ≠ []) (hdig : d.all Char.isDigit = true)
    (hc1 : c1 ≠ '\n') (hc2 : c2 ≠ '\n') (rest : List Char) :
    matchDetail (patIds c1 c2 d ++ rest) = some (d, rest) := by
  have hsplit : patIds c1 c2 d ++ rest =
      "(https://www".toList ++ (c1 :: ("cls".toList ++ (c2 ::
        ("cn/detail/".toList ++ (d ++ ')' :: rest))))) := by
    simp [patIds]
  have e1 : expectChars "(https://www".toList
      ("(https://www".toList ++ (c1 :: ("cls".toList ++ (c2 ::
        ("cn/detail/".toList ++ (d ++ ')' :: rest)))))) =
      some (c1 :: ("cls".toList ++ (c2 ::
        ("cn/detail/".toList ++ (d ++ ')' :: rest))))) :=
    expectChars_eq.mpr rfl
  have e2 : anyNotNl (c1 :: ("cls".toList ++ (c2 ::
      ("cn/detail/".toList ++ (d ++ ')' :: rest))))) =
      some ("cls".toList ++ (c2 :: ("cn/detail/".toList ++ (d ++ ')' :: rest)))) :=
    anyNotNl_eq.mpr ⟨c1, rfl, hc1⟩
  have e3 : expectChars "cls".toList ("cls".toList ++ (c2 ::
      ("cn/detail/".toList ++ (d ++ ')' :: rest)))) =
      some (c2 :: ("cn/detail/".toList ++ (d ++ ')' :: rest))) :=
    expectChars_eq.mpr rfl
  have e4 : anyNotNl (c2 :: ("cn/detail/".toList ++ (d ++ ')' :: rest))) =
      some ("cn/detail/".toList ++ (d ++ ')' :: rest)) :=
    anyNotNl_eq.mpr ⟨c2, rfl, hc2⟩
  have e5 : expectChars "cn/detail/".toList
      ("cn/detail/".toList ++ (d ++ ')' :: rest)) = some (d ++ ')' :: rest) :=
    expectChars_eq.mpr rfl
  have htw := takeWhile_all_append hdig (p := Char.isDigit) (c := ')')
    (by decide) rest
  unfold matchDetail
  rw [hsplit]
  simp only [e1, e2, e3, e4, e5, htw.1, htw.2]
  rw [if_neg hd]

theorem scanIdsGo_congr : ∀ (f1 : Nat), ∀ {f2 : Nat} {l : List Char},
    l.length ≤ f1 → l.length ≤ f2 → scanIdsGo f1 l = scanIdsGo f2 l := by
  intro f1
  induction f1 with
  | zero =>
    intro f2 l h1 h2
    have : l = [] := List.eq_nil_of_length_eq_zero (Nat.le_zero.mp h1)
    subst this
    cases f2 <;> rfl
  | succ f ih =>
    intro f2 l h1 h2
    cases l with
    | nil => cases f2 <;> rfl
    | cons c rest =>
      cases f2 with
      | zero => simp at h2
      | succ f2x =>
        simp only [scanIdsGo]
        cases hm : matchDetail (c :: rest) with
        | some p =>
          have hlt := @matchDetail_length (c :: rest) p.1 p.2 (by rw [hm])
          simp only [List.length_cons] at h1 h2 hlt
          show p.1 :: scanIdsGo f p.2 = p.1 :: scanIdsGo f2x p.2
          exact congrArg (List.cons p.1) (ih (by omega) (by omega))
        | none =>
          simp only [List.length_cons] at h1 h2
          show scanIdsGo f rest = scanIdsGo f2x rest
          exact ih (by omega) (by omega)

theorem scanIds_eq_of_match {l d rem : List Char}
    (h : matchDetail l = some (d, rem)) :
    scanIds l = d :: scanIds rem := by
  cases l with
  | nil => rw [show matchDetail [] = none from rfl] at h; cases h
  | cons c rest =>
    have hlt := matchDetail_length h
    show scanIdsGo (c :: rest).length (c :: rest) = _
    simp only [List.length_cons]
    show (match matchDetail (c :: rest) with
      | some p => p.1 :: scanIdsGo rest.length p.2
      | none => scanIdsGo rest.length rest) = _
    rw [h]
    show d :: scanIdsGo rest.length rem = d :: scanIdsGo rem.length rem
    simp only [List.length_cons] at hlt
    exact congrArg (List.cons d)
      (scanIdsGo_congr rest.length (by omega) (Nat.le_refl _))

theorem scanIds_eq_of_none {c : Char} {rest : List Char}
    (h : matchDetail (c :: rest) = none) :
    scanIds (c :: rest) = scanIds rest := by
  show scanIdsGo (c :: rest).length (c :: rest) = _
  simp only [List.length_cons]
  show (match matchDetail (c :: rest) with
    | some p => p.1 :: scanIdsGo rest.length p.2
    | none => scanIdsGo rest.length rest) = _
  rw [h]
  rfl

/-- Soundness of the scan: every extracted id comes from an occurrence
of the pattern in the text (newline-free at the wildcard positions). -/
theorem scanIds_sound_aux : ∀ (n : Nat) (l : List Char), l.length ≤ n →
    ∀ {d : List Char}, d ∈ scanIds l →
    ∃ pre c1 c2 post, l = pre ++ patIds c1 c2 d ++ post ∧ d ≠ [] ∧
      d.all Char.isDigit = true ∧ c1 ≠ '\n' ∧ c2 ≠ '\n' := by
  intro n
  induction n with
  | zero =>
    intro l hlen d hmem
    have : l = [] := List.eq_nil_of_length_eq_zero (Nat.le_zero.mp hlen)
    subst this
    simp [scanIds, scanIdsGo] at hmem
  | succ n ih =>
    intro l hlen d hmem
    cases l with
    | nil => simp [scanIds, scanIdsGo] at hmem
    | cons c rest =>
      cases hm : matchDetail (c :: rest) with
      | none =>
        rw [scanIds_eq_of_none hm] at hmem
        obtain ⟨pre, c1, c2, post, hsplit, h1, h2, h3, h4⟩ :=
          ih rest (by simpa using hlen) hmem
        exact ⟨c :: pre, c1, c2, post,
          by rw [hsplit]; simp [List.append_assoc], h1, h2, h3, h4⟩
      | some p =>
        obtain ⟨d0, rem⟩ := p
        rw [scanIds_eq_of_match hm] at hmem
        rcases List.mem_cons.mp hmem with he | hmem2
        · subst he
          obtain ⟨c1, c2, hsplit, h1, h2, h3, h4⟩ := matchDetail_sound hm
          exact ⟨[], c1, c2, rem, by simpa using hsplit, h1, h2, h3, h4⟩
        · have hlt := matchDetail_length hm
          simp only [List.length_cons] at hlen hlt
          obtain ⟨pre, c1, c2, post, hsplit, h1, h2, h3, h4⟩ :=
            ih rem (by omega) hmem2
          obtain ⟨c1a, c2a, hsplit2, _, _, _, _⟩ := matchDetail_sound hm
          refine ⟨patIds c1a c2a d0 ++ pre, c1, c2, post, ?_, h1, h2, h3, h4⟩
          rw [hsplit2, hsplit]
          simp [List.append_assoc]

theorem scanIds_sound {l d : List Char} (h : d ∈ scanIds l) :
    ∃ pre c1 c2 post, l = pre ++ patIds c1 c2 d ++ post ∧ d ≠ [] ∧
      d.all Char.isDigit = true ∧ c1 ≠ '\n' ∧ c2 ≠ '\n' :=
  scanIds_sound_aux l.length l (Nat.le_refl _) h

theorem patIds_length (c1 c2 : Char) (d : List Char) :
    (patIds c1 c2 d).length = 28 + d.length := by
  simp [patIds]
  omega

/-- In the digit tail of a matched pattern, no suffix can start a new
pattern: every position holds a digit or the closing parenthesis. -/
theorem drop_digits_ne {d0 : List Char} (hdig : d0.all Char.isDigit = true) :
    ∀ (j : Nat), j ≤ d0.length → ∀ (X t : List Char),
      (d0 ++ [')']).drop j ++ X ≠ '(' :: t := by
  induction d0 with
  | nil =>
    intro j hj X t
    have : j = 0 := by simpa using hj
    subst this
    simp
  | cons a as ih =>
    simp only [List.all_cons, Bool.and_eq_true] at hdig
    intro j hj X t
    cases j with
    | zero =>
      simp only [List.drop_zero, List.cons_append]
      intro hcontra
      rw [List.cons.injEq] at hcontra
      exact digit_ne_paren hdig.1 hcontra.1
    | succ j2 =>
      simp only [List.cons_append, List.drop_succ_cons]
      exact ih hdig.2 j2 (by simpa using hj) X t

/-- No position strictly inside a matched pattern can start another
pattern occurrence: the two-character prober `"(h"` fails everywhere
past the start. -/
theorem no_overlap {c1a c2a : Char} {d0 : List Char}
    (hdig0 : d0.all Char.isDigit = true) {k : Nat} (hk0 : 0 < k)
    (hklt : k < (patIds c1a c2a d0).length) (X t : List Char) :
    (patIds c1a c2a d0).drop k ++ X ≠ '(' :: 'h' :: t := by
  have hlen := patIds_length c1a c2a d0
  by_cases hk27 : k ≤ 26
  · interval_cases k <;> simp [patIds]
  · have hS : patIds c1a c2a d0 =
        ['(', 'h', 't', 't', 'p', 's', ':', '/', '/', 'w', 'w', 'w', c1a,
         'c', 'l', 's', c2a, 'c', 'n', '/', 'd', 'e', 't', 'a', 'i', 'l', '/'] ++
        (d0 ++ [')']) := rfl
    have hj : k - 27 ≤ d0.length := by omega
    have hdrop : (patIds c1a c2a d0).drop k = (d0 ++ [')']).drop (k - 27) := by
      rw [hS, List.drop_append_eq_append_drop]
      have h27 : (['(', 'h', 't', 't', 'p', 's', ':', '/', '/', 'w', 'w', 'w', c1a,
          'c', 'l', 's', c2a, 'c', 'n', '/', 'd', 'e', 't', 'a', 'i', 'l', '/'] :
          List Char).length = 27 := by simp
      rw [List.drop_eq_nil_of_le (by simp; omega), h27, List.nil_append]
    rw [hdrop]
    exact drop_digits_ne hdig0 (k - 27) hj X ('h' :: t)

/-- Completeness of the scan: every pattern occurrence in the text
contributes its id. -/
theorem scanIds_complete_aux {d : List Char} (hd : d ≠ [])
    (hdig : d.all Char.isDigit = true) {c1 c2 : Char} (hc1 : c1 ≠ '\n')
    (hc2 : c2 ≠ '\n') :
    ∀ (n : Nat) (pre post : List Char), pre.length ≤ n →
      d ∈ scanIds (pre ++ patIds c1 c2 d ++ post) := by
  intro n
  induction n with
  | zero =>
    intro pre post hlen
    have hpre : pre = [] := List.eq_nil_of_length_eq_zero (Nat.le_zero.mp hlen)
    subst hpre
    rw [List.nil_append,
      scanIds_eq_of_match (matchDetail_complete hd hdig hc1 hc2 post)]
    exact List.mem_cons_self _ _
  | succ n ih =>
    intro pre post hlen
    cases pre with
    | nil =>
      rw [List.nil_append,
        scanIds_eq_of_match (matchDetail_complete hd hdig hc1 hc2 post)]
      exact List.mem_cons_self _ _
    | cons a pre2 =>
      cases hm : matchDetail ((a :: pre2) ++ patIds c1 c2 d ++ post) with
      | none =>
        simp only [List.cons_append] at hm ⊢
        rw [scanIds_eq_of_none hm]
        exact ih pre2 post (by simpa using hlen)
      | some p =>
        obtain ⟨d0, rem⟩ := p
        rw [scanIds_eq_of_match hm]
        obtain ⟨c1a, c2a, hsplit2, hd0, hdig0, _, _⟩ := matchDetail_sound hm
        by_cases hk : (patIds c1a c2a d0).length ≤ (a :: pre2).length
        · have hdropped := congrArg (List.drop (patIds c1a c2a d0).length) hsplit2
          rw [List.drop_left] at hdropped
          rw [List.append_assoc, List.drop_append_eq_append_drop] at hdropped
          rw [show (patIds c1a c2a d0).length - (a :: pre2).length = 0 by omega,
            List.drop_zero] at hdropped
          have hrem : rem =
              ((a :: pre2).drop (patIds c1a c2a d0).length) ++
                patIds c1 c2 d ++ post := by
            rw [← hdropped, List.append_assoc]
          rw [hrem]
          refine List.mem_cons_of_mem _ (ih _ post ?_)
          have hP0 : 0 < (patIds c1a c2a d0).length := by
            rw [patIds_length]; omega
          simp only [List.length_drop]
          simp only [List.length_cons] at hlen ⊢
          omega
        · exfalso
          have hk2 : (a :: pre2).length < (patIds c1a c2a d0).length := by omega
          have hkpos : 0 < (a :: pre2).length := by simp
          have hdropped := congrArg (List.drop (a :: pre2).length) hsplit2
          rw [List.append_assoc, List.drop_left] at hdropped
          rw [List.drop_append_eq_append_drop] at hdropped
          rw [show (a :: pre2).length - (patIds c1a c2a d0).length = 0 by omega,
            List.drop_zero] at hdropped
          have hform : patIds c1 c2 d ++ post =
              '(' :: 'h' :: ('t' :: 't' :: 'p' :: 's' :: ':' :: '/' :: '/' ::
                'w' :: 'w' :: 'w' :: c1 :: 'c' :: 'l' :: 's' :: c2 :: 'c' ::
                'n' :: '/' :: 'd' :: 'e' :: 't' :: 'a' :: 'i' :: 'l' :: '/' ::
                ((d ++ [')']) ++ post)) := by
            simp [patIds]
          exact no_overlap hdig0 hkpos hk2 rem _ (by rw [← hform]; exact hdropped.symm)

/-- Completeness of the scan, direct form. -/
theorem scanIds_complete {pre post d : List Char} {c1 c2 : Char} (hd : d ≠ [])
    (hdig : d.all Char.isDigit = true) (hc1 : c1 ≠ '\n') (hc2 : c2 ≠ '\n') :
    d ∈ scanIds (pre ++ patIds c1 c2 d ++ post) :=
  scanIds_complete_aux hd hdig hc1 hc2 pre.length pre post (Nat.le_refl _)

/-! ### Lemmas about line splitting and joining -/

theorem splitLines_ne_nil (c : List Char) : splitLines c ≠ [] := by
  cases c with
  | nil => simp [splitLines]
  | cons a rest =>
    simp only [splitLines]
    split
    · simp
    · split <;> simp

theorem joinLines_cons_ne {x : List Char} {rest : List (List Char)}
    (h : rest ≠ []) : joinLines (x :: rest) = x ++ '\n' :: joinLines rest := by
  cases rest with
  | nil => exact absurd rfl h
  | cons y t => rfl

theorem joinLines_splitLines (c : List Char) : joinLines (splitLines c) = c := by
  induction c with
  | nil => rfl
  | cons a rest ih =>
    simp only [splitLines]
    by_cases h : a = '\n'
    · rw [if_pos h, joinLines_cons_ne (splitLines_ne_nil rest), ih,
        List.nil_append, h]
    · rw [if_neg h]
      cases hs : splitLines rest with
      | nil => exact absurd hs (splitLines_ne_nil rest)
      | cons hh tt =>
        rw [hs] at ih
        cases tt with
        | nil =>
          show a :: hh = a :: rest
          rw [show joinLines [hh] = hh from rfl] at ih
          rw [ih]
        | cons y t =>
          show joinLines ((a :: hh) :: y :: t) = a :: rest
          rw [joinLines_cons_ne (show (y :: t : List (List Char)) ≠ [] by simp)]
          rw [joinLines_cons_ne (show (y :: t : List (List Char)) ≠ [] by simp)]
            at ih
          rw [List.cons_append, ih]

theorem splitLines_no_nl (c : List Char) : ∀ x ∈ splitLines c, '\n' ∉ x := by
  induction c with
  | nil => intro x hx; simp [splitLines] at hx; simp [hx]
  | cons a rest ih =>
    intro x hx
    simp only [splitLines] at hx
    by_cases h : a = '\n'
    · rw [if_pos h] at hx
      rcases List.mem_cons.mp hx with he | hm
      · simp [he]
      · exact ih x hm
    · rw [if_neg h] at hx
      cases hs : splitLines rest with
      | nil => exact absurd hs (splitLines_ne_nil rest)
      | cons hh tt =>
        rw [hs] at hx
        rcases List.mem_cons.mp hx with he | hm
        · subst he
          intro hcontra
          rcases List.mem_cons.mp hcontra with he2 | hm2
          · exact h he2.symm
          · exact ih hh (hs ▸ List.mem_cons_self _ _) hm2
        · exact ih x (hs ▸ List.mem_cons_of_mem _ hm)

theorem prefix_no_nl {m x R : List Char} (hnl : '\n' ∉ m)
    (h : m <+: x ++ '\n' :: R) : m <+: x := by
  induction m generalizing x with
  | nil => exact List.nil_prefix
  | cons b m2 ih =>
    have hb : b ≠ '\n' := fun he => hnl (he ▸ List.mem_cons_self _ _)
    have hnl2 : '\n' ∉ m2 := fun hm => hnl (List.mem_cons_of_mem _ hm)
    cases x with
    | nil =>
      rw [List.nil_append, List.cons_prefix_cons] at h
      exact absurd h.1 hb
    | cons a x2 =>
      rw [List.cons_append, List.cons_prefix_cons] at h
      rw [List.cons_prefix_cons]
      exact ⟨h.1, ih hnl2 h.2⟩

theorem infix_no_nl_split : ∀ (x : List Char) {m R : List Char}, '\n' ∉ m →
    m <:+: x ++ '\n' :: R → m <:+: x ∨ m <:+: R := by
  intro x
  induction x with
  | nil =>
    intro m R hnl h
    obtain ⟨s, t, hst⟩ := h
    cases s with
    | nil =>
      cases m with
      | nil => exact Or.inl List.nil_infix
      | cons b m2 =>
        simp only [List.nil_append, List.cons_append, List.cons.injEq] at hst
        exact absurd hst.1 (fun he => hnl (he ▸ List.mem_cons_self _ _))
    | cons c s2 =>
      simp only [List.nil_append, List.cons_append, List.cons.injEq] at hst
      exact Or.inr ⟨s2, t, hst.2⟩
  | cons a x2 ih =>
    intro m R hnl h
    obtain ⟨s, t, hst⟩ := h
    cases s with
    | nil =>
      have hpref : m <+: (a :: x2) ++ '\n' :: R := ⟨t, by simpa using hst⟩
      exact Or.inl (prefix_no_nl hnl hpref).isInfix
    | cons c s2 =>
      simp only [List.cons_append, List.cons.injEq] at hst
      rcases ih hnl ⟨s2, t, hst.2⟩ with hi | hi
      · exact Or.inl (hi.trans (List.suffix_cons a x2).isInfix)
      · exact Or.inr hi

theorem infix_no_nl_join : ∀ (ls : List (List Char)) {m : List Char},
    '\n' ∉ m → m <:+: joinLines ls → m = [] ∨ ∃ x ∈ ls, m <:+: x := by
  intro ls
  induction ls with
  | nil =>
    intro m hnl h
    exact Or.inl (List.eq_nil_of_infix_nil h)
  | cons x rest ih =>
    intro m hnl h
    cases rest with
    | nil => exact Or.inr ⟨x, List.mem_cons_self _ _, h⟩
    | cons y t =>
      rw [joinLines_cons_ne (by simp)] at h
      rcases infix_no_nl_split x hnl h with hi | hi
      · exact Or.inr ⟨x, List.mem_cons_self _ _, hi⟩
      · rcases ih hnl hi with he | ⟨z, hz, hzi⟩
        · exact Or.inl he
        · exact Or.inr ⟨z, List.mem_cons_of_mem _ hz, hzi⟩

theorem infix_join_of_mem : ∀ {ls : List (List Char)} {x m : List Char},
    x ∈ ls → m <:+: x → m <:+: joinLines ls := by
  intro ls
  induction ls with
  | nil => intro x m hx; simp at hx
  | cons z rest ih =>
    intro x m hx hm
    cases rest with
    | nil =>
      rcases List.mem_cons.mp hx with he | hmem
      · exact he ▸ hm
      · simp at hmem
    | cons y t =>
      rw [joinLines_cons_ne (by simp)]
      rcases List.mem_cons.mp hx with he | hmem
      · subst he
        exact hm.trans ⟨[], '\n' :: joinLines (y :: t), by simp⟩
      · have : m <:+: joinLines (y :: t) := ih hmem hm
        obtain ⟨s, t2, hst⟩ := this
        exact ⟨z ++ '\n' :: s, t2, by rw [← hst]; simp⟩

/-! ### Lemmas about section insertion and grouping -/

theorem mem_insert_at_left {i : Nat} {xs lines : List (List Char)}
    {x : List Char} (h : x ∈ lines) : x ∈ insert_at i xs lines := by
  unfold insert_at
  rw [← List.take_append_drop i lines] at h
  simp only [List.mem_append] at h ⊢
  tauto

theorem mem_insert_at_right {i : Nat} {xs lines : List (List Char)}
    {x : List Char} (h : x ∈ xs) : x ∈ insert_at i xs lines := by
  unfold insert_at
  simp only [List.mem_append]
  tauto

theorem insert_section_try_mem {hdr : List Char}
    {newLines lines out : List (List Char)}
    (h : insert_section_try hdr newLines lines = some out) :
    (∀ x ∈ lines, x ∈ out) ∧ (∀ x ∈ newLines, x ∈ out) := by
  unfold insert_section_try at h
  split at h
  · cases h
  next i0 hidx =>
    split at h <;> simp only [Option.some.injEq] at h <;> subst h
    · exact ⟨fun x hx => mem_insert_at_left (mem_insert_at_left hx),
        fun x hx => mem_insert_at_right hx⟩
    · exact ⟨fun x hx => mem_insert_at_left hx,
        fun x hx => mem_insert_at_right hx⟩

theorem insert_normal_mem (newNormal lines : List (List Char)) :
    (∀ x ∈ lines, x ∈ (insert_normal newNormal lines).1) ∧
    (∀ x ∈ newNormal, x ∈ (insert_normal newNormal lines).1) := by
  unfold insert_normal
  split
  next he => subst he; simp
  · split
    next out hout =>
      have := insert_section_try_mem hout
      exact ⟨this.1, this.2⟩
    next =>
      constructor
      · intro x hx; simp [hx]
      · intro x hx; simp [hx]

theorem insert_red_mem (newRed lines : List (List Char)) :
    (∀ x ∈ lines, x ∈ (insert_red newRed lines).1) ∧
    (∀ x ∈ newRed, x ∈ (insert_red newRed lines).1) := by
  unfold insert_red
  split
  next he => subst he; simp
  · split
    next out hout =>
      have := insert_section_try_mem hout
      exact ⟨this.1, this.2⟩
    next =>
      constructor
      · intro x hx; simp [hx]
      · intro x hx; simp [hx]

/-- The civil date under which an item is archived, when it has a
truthy timestamp. -/
def item_date (t : Telegram) : Option (List Char) :=
  match ts_truthy t.timestamp_raw with
  | some n => some (format_date_ymd n)
  | none => none

theorem group_fold_single {D : List Char} :
    ∀ (l : List Telegram) (acc : List Telegram),
      (∀ t ∈ l, item_date t = some D) →
      l.foldl
        (fun acc t =>
          match ts_truthy t.timestamp_raw with
          | none => acc
          | some n => insert_group acc (format_date_ymd n) t)
        [(D, acc)] = [(D, acc ++ l)] := by
  intro l
  induction l with
  | nil => intro acc h; simp
  | cons t rest ih =>
    intro acc h
    have ht := h t (List.mem_cons_self _ _)
    unfold item_date at ht
    rw [List.foldl_cons]
    cases hts : ts_truthy t.timestamp_raw with
    | none => rw [hts] at ht; cases ht
    | some n =>
      rw [hts] at ht
      simp only [Option.some.injEq] at ht
      simp only [hts]
      rw [show insert_group [(D, acc)] (format_date_ymd n) t =
          [(D, acc ++ [t])] by simp [insert_group, ht]]
      rw [ih (acc ++ [t]) (fun x hx => h x (List.mem_cons_of_mem _ hx))]
      simp

theorem group_by_date_single {D : List Char} {l : List Telegram}
    (hne : l ≠ []) (h : ∀ t ∈ l, item_date t = some D) :
    group_by_date l = [(D, l)] := by
  cases l with
  | nil => exact absurd rfl hne
  | cons t rest =>
    unfold group_by_date
    have ht := h t (List.mem_cons_self _ _)
    unfold item_date at ht
    rw [List.foldl_cons]
    cases hts : ts_truthy t.timestamp_raw with
    | none => rw [hts] at ht; cases ht
    | some n =>
      rw [hts] at ht
      simp only [Option.some.injEq] at ht
      simp only [hts]
      rw [show insert_group [] (format_date_ymd n) t = [(D, [t])] by
        simp [insert_group, ht]]
      rw [group_fold_single rest [t] (fun x hx => h x (List.mem_cons_of_mem _ hx))]
      simp

theorem sort_desc_perm (l : List Telegram) : (sort_desc l).Perm l :=
  List.perm_insertionSort telegram_desc l

theorem mem_sort_desc {l : List Telegram} {t : Telegram} :
    t ∈ sort_desc l ↔ t ∈ l :=
  (sort_desc_perm l).mem_iff

theorem format_line_mem_flatten {lst : List Telegram} {t : Telegram}
    (h : t ∈ lst) :
    format_line t ∈ (lst.map format_telegram_lines).flatten := by
  rw [List.mem_flatten]
  exact ⟨format_telegram_lines t, List.mem_map_of_mem _ h,
    by simp [format_telegram_lines]⟩

/-- One-date merge characterization: when every item of a non-empty
batch falls on date `D` and `D`'s file is absent or failure-free, the
merge writes exactly one file, whose line list keeps every pre-existing
line and contains the rendered line of every batch item. -/
theorem append_one_date {fs : List Char → FileEntry} {items : List Telegram}
    {D : List Char} {lines0 : List (List Char)} (hne : items ≠ [])
    (hdates : ∀ t ∈ items, item_date t = some D)
    (hfile : (fs D = .absent ∧ lines0 = templateLines) ∨
      (∃ c, fs D = .file c false false ∧ lines0 = splitLines c)) :
    ∃ lines2 b, append_new_telegrams fs items =
        .ok (fs_update fs D (.file (joinLines lines2) false false), b) ∧
      (∀ x ∈ lines0, x ∈ lines2) ∧
      (∀ t ∈ items, format_line t ∈ lines2) := by
  have hsne : sort_desc items ≠ [] := by
    intro hcontra
    have hperm := sort_desc_perm items
    rw [hcontra] at hperm
    exact hne (List.perm_nil.mp hperm.symm)
  have hsdates : ∀ t ∈ sort_desc items, item_date t = some D :=
    fun t ht => hdates t (mem_sort_desc.mp ht)
  unfold append_new_telegrams
  rw [if_neg hne, group_by_date_single hsne hsdates]
  simp only [List.foldlM_cons, List.foldlM_nil, bind_pure]
  set s := sort_desc items with hs
  have hmem_old : ∀ x ∈ lines0, x ∈ (merge_lines s lines0).1 := by
    intro x hx
    show x ∈ (insert_red _ (insert_normal _ lines0).1).1
    exact (insert_red_mem _ _).1 x ((insert_normal_mem _ lines0).1 x hx)
  have hmem_new : ∀ t ∈ items, format_line t ∈ (merge_lines s lines0).1 := by
    intro t ht
    have hts : t ∈ s := mem_sort_desc.mpr ht
    show format_line t ∈ (insert_red _ (insert_normal _ lines0).1).1
    by_cases hr : t.is_red
    · refine (insert_red_mem _ _).2 _ ?_
      exact format_line_mem_flatten (List.mem_filter.mpr ⟨hts, by simp [hr]⟩)
    · refine (insert_red_mem _ _).1 _ ?_
      refine (insert_normal_mem _ lines0).2 _ ?_
      exact format_line_mem_flatten (List.mem_filter.mpr ⟨hts, by simp [hr]⟩)
  rcases hfile with ⟨habs, hl0⟩ | ⟨c, hf, hl0⟩
  · refine ⟨(merge_lines s lines0).1, (merge_lines s lines0).2, ?_, hmem_old,
      hmem_new⟩
    show process_date_group (fs, false) (D, s) = _
    unfold process_date_group
    simp only [habs, ← hl0, Bool.false_or]
  · refine ⟨(merge_lines s lines0).1, (merge_lines s lines0).2, ?_, hmem_old,
      hmem_new⟩
    show process_date_group (fs, false) (D, s) = _
    unfold process_date_group
    simp only [hf, ← hl0, Bool.false_or]

theorem patIds_dot (d : List Char) :
    patIds '.' '.' d = '(' :: (detailBase ++ (d ++ [')'])) := rfl

/-- Any rendered item line whose url is the canonical detail url
contains the extraction pattern. -/
theorem format_line_contains_pat {t : Telegram}
    (hurl : t.url = detailBase ++ t.id) :
    ∃ A B, format_line t = A ++ patIds '.' '.' t.id ++ B := by
  have hne : t.url ≠ [] := by rw [hurl]; simp [detailBase]
  unfold format_line
  rw [if_neg hne]
  by_cases hr : t.is_red
  · rw [if_pos hr]
    refine ⟨"  - [".toList ++ t.time ++ "] **[".toList ++ t.content ++ "]".toList,
      "**".toList, ?_⟩
    rw [patIds_dot, hurl]
    show _ = _
    simp [detailBase]
  · rw [if_neg hr]
    refine ⟨"  - [".toList ++ t.time ++ "] [".toList ++ t.content ++ "]".toList,
      [], ?_⟩
    rw [patIds_dot, hurl]
    show _ = _
    simp [detailBase]

theorem nl_not_digit {c : Char} (h : c.isDigit = true) : c ≠ '\n' := by
  intro he; rw [he] at h; simp [Char.isDigit] at h

theorem patIds_no_nl {c1 c2 : Char} {d : List Char} (hc1 : c1 ≠ '\n')
    (hc2 : c2 ≠ '\n') (hdig : d.all Char.isDigit = true) :
    '\n' ∉ patIds c1 c2 d := by
  intro hmem
  unfold patIds at hmem
  simp only [List.mem_cons, List.mem_append, List.mem_singleton] at hmem
  rcases hmem with h | h | h | h | h | h | h | h | h | h | h | h | h | h | h |
    h | h | h | h | h | h | h | h | h | h | h | h | h
  all_goals first
    | (exact absurd h.symm (by decide))
    | (exact absurd h.symm hc1)
    | (exact absurd h.symm hc2)
    | (rcases h with h | h
       · have := List.all_eq_true.mp hdig _ h
         exact nl_not_digit this rfl
       · exact absurd h (by decide))

theorem append_nil (fs : List Char → FileEntry) :
    append_new_telegrams fs [] = .ok (fs, false) := by
  unfold append_new_telegrams
  rw [if_pos rfl]

theorem fs_update_same (fs : List Char → FileEntry) (d : List Char)
    (e : FileEntry) : fs_update fs d e d = e := by
  simp [fs_update]

theorem run_once_step {fs : List Char → FileEntry} {today : List Char}
    {batch : List Telegram} {e0 : List (List Char)} {lines0 : List (List Char)}
    (hid : ∀ t ∈ batch, t.id ≠ [] ∧ t.id.all Char.isDigit = true)
    (hurl : ∀ t ∈ batch, t.url = detailBase ++ t.id)
    (hdate : ∀ t ∈ batch, item_date t = some today)
    (hget : get_existing_ids_for_date fs today = .ok e0)
    (hfile : (fs today = .absent ∧ lines0 = templateLines) ∨
      (∃ c, fs today = .file c false false ∧ lines0 = splitLines c))
    (he0 : ∀ d ∈ e0, ∃ x ∈ lines0, ∃ c1 c2, (patIds c1 c2 d) <:+: x ∧ d ≠ [] ∧
      d.all Char.isDigit = true ∧ c1 ≠ '\n' ∧ c2 ≠ '\n') :
    ∃ fs1 l1 b1, run_once fs today batch = .ok (fs1, l1, b1) ∧
      run_once fs1 today batch = .ok (fs1, [], false) := by
  classical
  set pred : List (List Char) → Telegram → Bool := fun e t =>
    decide (t.id ≠ []) && decide (t.id ∉ e) && decide (ts_truthy t.timestamp_raw ≠ none)
    with hpred
  have hrun : ∀ (fsx : List Char → FileEntry) (ex : List (List Char)),
      get_existing_ids_for_date fsx today = .ok ex →
      run_once fsx today batch =
        match append_new_telegrams fsx (batch.filter (pred ex)) with
        | .error e => .error e
        | .ok p => .ok (p.1, batch.filter (pred ex), p.2) := by
    intro fsx ex hx
    unfold run_once
    rw [hx]
  by_cases hfe : batch.filter (pred e0) = []
  · refine ⟨fs, [], false, ?_, ?_⟩
    · rw [hrun fs e0 hget, hfe, append_nil]
    · rw [hrun fs e0 hget, hfe, append_nil]
  · have hsub : ∀ t ∈ batch.filter (pred e0), t ∈ batch :=
      fun t ht => (List.mem_filter.mp ht).1
    obtain ⟨lines2, b, happend, hold, hnew⟩ :=
      @append_one_date fs (batch.filter (pred e0)) today lines0 hfe
        (fun t ht => hdate t (hsub t ht)) hfile
    set fs1 := fs_update fs today (.file (joinLines lines2) false false) with hfs1
    have hget1 : get_existing_ids_for_date fs1 today =
        .ok (scanIds (joinLines lines2)) := by
      unfold get_existing_ids_for_date
      rw [hfs1, fs_update_same]
    -- every batch item's id is extracted from the new file content
    have hin1 : ∀ t ∈ batch, t.id ∈ scanIds (joinLines lines2) := by
      intro t ht
      by_cases hmem : t ∈ batch.filter (pred e0)
      · have hline := hnew t hmem
        obtain ⟨A, B, hAB⟩ := format_line_contains_pat (hurl t ht)
        have hinf : patIds '.' '.' t.id <:+: format_line t := ⟨A, B, hAB.symm⟩
        obtain ⟨s, u, hsu⟩ := infix_join_of_mem hline hinf
        exact hsu ▸ scanIds_complete (hid t ht).1 (hid t ht).2
          (by decide) (by decide)
      · -- the only failing conjunct of the filter is membership in e0
        have hidt := hid t ht
        have hts : ts_truthy t.timestamp_raw ≠ none := by
          have := hdate t ht
          unfold item_date at this
          intro hc
          rw [hc] at this
          cases this
        have hine0 : t.id ∈ e0 := by
          by_contra hc
          exact hmem (List.mem_filter.mpr ⟨ht, by
            simp [hpred, hidt.1, hc, hts]⟩)
        obtain ⟨x, hx0, c1, c2, hinf, hdne, hddig, hc1, hc2⟩ := he0 t.id hine0
        obtain ⟨s, u, hsu⟩ := infix_join_of_mem (hold x hx0) hinf
        exact hsu ▸ scanIds_complete hdne hddig hc1 hc2
    have hfilter2 : batch.filter (pred (scanIds (joinLines lines2))) = [] := by
      rw [List.filter_eq_nil_iff]
      intro t ht
      simp only [hpred, Bool.and_eq_true, decide_eq_true_eq]
      intro hcontra
      exact absurd (hin1 t ht) hcontra.1.2
    refine ⟨fs1, batch.filter (pred e0), b, ?_, ?_⟩
    · rw [hrun fs e0 hget, happend]
    · rw [hrun fs1 (scanIds (joinLines lines2)) hget1, hfilter2, append_nil]

theorem patIds_ne_nil (c1 c2 : Char) (d : List Char) : patIds c1 c2 d ≠ [] := by
  simp [patIds]

/-- The same-date idempotence statement, with the initial state of the
run date's file unconstrained beyond being readable and writable. -/
theorem run_once_idempotent_same_date {fs : List Char → FileEntry}
    {today : List Char} {batch : List Telegram}
    (hid : ∀ t ∈ batch, t.id ≠ [] ∧ t.id.all Char.isDigit = true)
    (hurl : ∀ t ∈ batch, t.url = detailBase ++ t.id)
    (hdate : ∀ t ∈ batch, item_date t = some today)
    (hfs : fs today = .absent ∨ ∃ c, fs today = .file c false false) :
    ∃ fs1 l1 b1, run_once fs today batch = .ok (fs1, l1, b1) ∧
      run_once fs1 today batch = .ok (fs1, [], false) := by
  rcases hfs with habs | ⟨c0, hf⟩
  · have hget : get_existing_ids_for_date fs today = .ok [] := by
      unfold get_existing_ids_for_date
      rw [habs]
    exact run_once_step hid hurl hdate hget (Or.inl ⟨habs, rfl⟩)
      (fun d hd => absurd hd (List.not_mem_nil d))
  · have hget : get_existing_ids_for_date fs today = .ok (scanIds c0) := by
      unfold get_existing_ids_for_date
      rw [hf]
    refine run_once_step hid hurl hdate hget (Or.inr ⟨c0, hf, rfl⟩) ?_
    intro d hd
    obtain ⟨pre, c1, c2, post, hsplit, hdne, hdig, hc1, hc2⟩ := scanIds_sound hd
    have hinf : patIds c1 c2 d <:+: joinLines (splitLines c0) := by
      rw [joinLines_splitLines, hsplit]
      exact ⟨pre, post, rfl⟩
    rcases infix_no_nl_join (splitLines c0) (patIds_no_nl hc1 hc2 hdig) hinf with
      he | ⟨x, hx, hxi⟩
    · exact absurd he (patIds_ne_nil c1 c2 d)
    · exact ⟨x, hx, c1, c2, hxi, hdne, hdig, hc1, hc2⟩

/-! ### Fresh-file shape of the merge -/

theorem insert_section_try_template (nl : List (List Char)) :
    insert_section_try normal_header nl templateLines =
      some (templateLines ++ nl) := by
  unfold insert_section_try
  simp only [show List.findIdx? (fun x => x = normal_header) templateLines =
    some 4 from rfl]
  rw [if_neg (by decide)]
  unfold insert_at
  rw [show templateLines.take 6 = templateLines from rfl,
    show templateLines.drop 6 = ([] : List (List Char)) from rfl,
    List.append_nil]

theorem insert_section_try_red_template (rl nl : List (List Char)) :
    insert_section_try red_header rl (templateLines ++ nl) =
      some ([red_header, []] ++ rl ++
        ([FILE_SEPARATOR, [], normal_header, []] ++ nl)) := by
  unfold insert_section_try
  simp only [show (templateLines ++ nl).findIdx? (fun x => x = red_header) =
    some 0 from rfl]
  rw [if_neg (by
    intro hcontra
    exact hcontra.2 (show pyStrip ((templateLines ++ nl).getD 1 []) = [] from rfl))]
  unfold insert_at
  rw [show (templateLines ++ nl).take 2 = [red_header, []] from rfl,
    show (templateLines ++ nl).drop 2 =
      [FILE_SEPARATOR, [], normal_header, []] ++ nl from rfl]

theorem insert_normal_template (nl : List (List Char)) :
    (insert_normal nl templateLines).1 = templateLines ++ nl := by
  unfold insert_normal
  by_cases h : nl = []
  · rw [if_pos h, h, List.append_nil]
  · rw [if_neg h, insert_section_try_template]

theorem insert_red_template (rl nl : List (List Char)) :
    (insert_red rl (templateLines ++ nl)).1 =
      [red_header, []] ++ rl ++
        ([FILE_SEPARATOR, [], normal_header, []] ++ nl) := by
  unfold insert_red
  by_cases h : rl = []
  · rw [if_pos h, h]
    rfl
  · rw [if_neg h, insert_section_try_red_template]

theorem sort_desc_sorted (l : List Telegram) :
    (sort_desc l).Pairwise
      (fun a b => b.timestamp_raw.getD 0 ≤ a.timestamp_raw.getD 0) :=
  List.sorted_insertionSort telegram_desc l

/-- When the date's file does not yet exist, the merge writes exactly
the template with the sorted flagged lines under the flagged header
and the sorted normal lines under the normal header. -/
theorem append_fresh_file {fs : List Char → FileEntry} {items : List Telegram}
    {D : List Char} (hne : items ≠ [])
    (hdates : ∀ t ∈ items, item_date t = some D) (habs : fs D = .absent) :
    ∃ b, append_new_telegrams fs items =
      .ok (fs_update fs D (.file (joinLines
        ([red_header, []] ++
          (((sort_desc items).filter (fun t => t.is_red)).map
            format_telegram_lines).flatten ++
          ([FILE_SEPARATOR, [], normal_header, []] ++
            (((sort_desc items).filter (fun t => !t.is_red)).map
              format_telegram_lines).flatten))) false false), b) := by
  have hsne : sort_desc items ≠ [] := by
    intro hcontra
    have hperm := sort_desc_perm items
    rw [hcontra] at hperm
    exact hne (List.perm_nil.mp hperm.symm)
  have hsdates : ∀ t ∈ sort_desc items, item_date t = some D :=
    fun t ht => hdates t (mem_sort_desc.mp ht)
  unfold append_new_telegrams
  rw [if_neg hne, group_by_date_single hsne hsdates]
  simp only [List.foldlM_cons, List.foldlM_nil, bind_pure]
  unfold process_date_group
  simp only [habs, Bool.false_or]
  refine ⟨(merge_lines (sort_desc items) templateLines).2, ?_⟩
  rw [show (merge_lines (sort_desc items) templateLines).1 =
    [red_header, []] ++
      (((sort_desc items).filter (fun t => t.is_red)).map
        format_telegram_lines).flatten ++
      ([FILE_SEPARATOR, [], normal_header, []] ++
        (((sort_desc items).filter (fun t => !t.is_red)).map
          format_telegram_lines).flatten) from by
    show (insert_red _ (insert_normal _ templateLines).1).1 = _
    rw [insert_normal_template, insert_red_template]]

/-! ### Signature lemmas -/

theorem lookup_param_eq_none {params : List (String × String)} {k : String} :
    lookup_param params k = none ↔ k ∉ params.map Prod.fst := by
  induction params with
  | nil => simp [lookup_param]
  | cons p rest ih =>
    obtain ⟨pk, pv⟩ := p
    simp only [lookup_param, List.map_cons, List.mem_cons]
    split
    next he => subst he; simp
    next he =>
      rw [ih]
      constructor
      · intro hn hor
        rcases hor with h1 | h2
        · exact he h1.symm
        · exact hn h2
      · intro hn h2
        exact hn (Or.inr h2)

/-- The canonical signed string depends only on the underlying map:
two key-value lists with distinct keys and equal lookups render
identically. -/
theorem params_string_ext {p q : List (String × String)}
    (hp : (p.map Prod.fst).Nodup) (hq : (q.map Prod.fst).Nodup)
    (h : ∀ k, lookup_param p k = lookup_param q k) :
    params_string p = params_string q := by
  have hmem : ∀ k, k ∈ p.map Prod.fst ↔ k ∈ q.map Prod.fst := by
    intro k
    rw [← not_iff_not, ← lookup_param_eq_none, ← lookup_param_eq_none, h k]
  have hperm : (p.map Prod.fst).Perm (q.map Prod.fst) := by
    apply List.perm_of_nodup_nodup_toFinset_eq hp hq
    ext k
    simp [List.mem_toFinset, hmem k]
  have hkeys : sorted_keys p = sorted_keys q := by
    unfold sorted_keys
    have hperm2 : (List.insertionSort str_le (p.map Prod.fst)).Perm
        (List.insertionSort str_le (q.map Prod.fst)) :=
      ((List.perm_insertionSort _ _).trans hperm).trans
        (List.perm_insertionSort _ _).symm
    exact List.eq_of_perm_of_sorted hperm2
      (List.sorted_insertionSort str_le (p.map Prod.fst))
      (List.sorted_insertionSort str_le (q.map Prod.fst))
  unfold params_string
  rw [hkeys]
  congr 1
  exact List.map_congr_left (fun k _ => by rw [h k])

/-! ### Fetch retry lemmas -/

theorem fetch_aux_all_fail {o : Nat → ApiAttempt} :
    ∀ (n i : Nat), (∀ j, j < n → attemptFails (o (i + j))) →
      fetch_aux o n i = ([], List.replicate (n - 1) RETRY_DELAY) := by
  intro n
  induction n with
  | zero => intro i h; rfl
  | succ n ih =>
    intro i h
    have h0 := h 0 (by omega)
    rw [Nat.add_zero] at h0
    have hrec : fetch_aux o n (i + 1) = ([], List.replicate (n - 1) RETRY_DELAY) :=
      ih (i + 1) (fun j hj => by
        have hx := h (j + 1) (by omega)
        rw [show i + (j + 1) = i + 1 + j by omega] at hx
        exact hx)
    have hfin : ∀ st : List Telegram × List Nat,
        st = ([], List.replicate (n - 1) RETRY_DELAY) →
        (st.1, (if n ≠ 0 then [RETRY_DELAY] else []) ++ st.2) =
          (([] : List Telegram), List.replicate (n + 1 - 1) RETRY_DELAY) := by
      intro st hst
      subst hst
      cases n with
      | zero => simp
      | succ m => simp [List.replicate_succ]
    unfold fetch_aux
    cases ho : o i with
    | parsed b =>
      unfold attemptFails at h0
      rw [ho] at h0
      simp only [h0]
      exact hfin _ hrec
    | requestError => simp only; exact hfin _ hrec
    | jsonDecodeError => simp only; exact hfin _ hrec

/-! ### Substring characterization -/

theorem isPrefixOf_eq_true_iff {p l : List Char} :
    p.isPrefixOf l = true ↔ p <+: l := List.isPrefixOf_iff_prefix

theorem containsSub_iff {hay nd : List Char} :
    containsSub hay nd = true ↔ nd <:+: hay := by
  induction hay with
  | nil =>
    unfold containsSub
    split
    next hp =>
      simp only [true_iff]
      exact (isPrefixOf_eq_true_iff.mp hp).isInfix
    next hp =>
      simp only [Bool.false_eq_true, false_iff]
      intro hcontra
      have he := List.eq_nil_of_infix_nil hcontra
      subst he
      exact hp (by decide)
  | cons c t ih =>
    unfold containsSub
    split
    next hp =>
      simp only [true_iff]
      exact (isPrefixOf_eq_true_iff.mp hp).isInfix
    next hp =>
      rw [ih, List.infix_cons_iff]
      have hnp : ¬ nd <+: c :: t := fun hcontra =>
        hp (isPrefixOf_eq_true_iff.mpr hcontra)
      tauto

/-! ### Per-date failure behavior -/

theorem fs_update_readFails {fs : List Char → FileEntry} {k : List Char}
    {e : FileEntry} (hfs : ∀ d, (fs d).readFails = false)
    (he : e.readFails = false) : ∀ d, ((fs_update fs k e) d).readFails = false := by
  intro d
  unfold fs_update
  split
  · exact he
  · exact hfs d

theorem process_date_group_ok {fsb : (List Char → FileEntry) × Bool}
    {g : List Char × List Telegram}
    (h : ∀ d, (fsb.1 d).readFails = false) :
    ∃ r, process_date_group fsb g = .ok r ∧
      ∀ d, (r.1 d).readFails = false := by
  unfold process_date_group
  split
  next c wf hf =>
    have hc := h g.1
    rw [hf] at hc
    simp [FileEntry.readFails] at hc
  next c hf => exact ⟨_, rfl, h⟩
  next c hf => exact ⟨_, rfl, fs_update_readFails h rfl⟩
  next hf => exact ⟨_, rfl, fs_update_readFails h rfl⟩

theorem foldlM_groups_ok :
    ∀ (gs : List (List Char × List Telegram))
      (fsb : (List Char → FileEntry) × Bool),
      (∀ d, (fsb.1 d).readFails = false) →
      ∃ r, gs.foldlM process_date_group fsb = .ok r ∧
        ∀ d, (r.1 d).readFails = false := by
  intro gs
  induction gs with
  | nil => intro fsb h; exact ⟨fsb, rfl, h⟩
  | cons g rest ih =>
    intro fsb h
    obtain ⟨r1, hr1, hp1⟩ := process_date_group_ok (g := g) h
    obtain ⟨r2, hr2, hp2⟩ := ih r1 hp1
    refine ⟨r2, ?_, hp2⟩
    rw [List.foldlM_cons, hr1]
    exact hr2

/-- Read failures are the only way the merge can abort: on a directory
with no read-failing entries, `append_new_telegrams` always returns
normally (write failures included). -/
theorem append_ok_of_no_read_failure {fs : List Char → FileEntry}
    (h : ∀ d, (fs d).readFails = false) (items : List Telegram) :
    ∃ r, append_new_telegrams fs items = .ok r := by
  unfold append_new_telegrams
  split
  · exact ⟨_, rfl⟩
  · obtain ⟨r, hr, _⟩ := foldlM_groups_ok _ (fs, false) h
    exact ⟨r, hr⟩

/-! ### JSONFixer structure lemmas -/

mutual
theorem clean_eq_map_v : ∀ v : JValue,
    clean_data_recursive v = map_string_leaves clean_text v
  | .jnull => rfl
  | .jbool _ => rfl
  | .jnum _ => rfl
  | .jstr _ => rfl
  | .jarr xs => congrArg JValue.jarr (clean_eq_map_a xs)
  | .jobj kvs => congrArg JValue.jobj (clean_eq_map_o kvs)
theorem clean_eq_map_a : ∀ a : JArr,
    clean_arr_entries a = map_string_leaves_arr clean_text a
  | .anil => rfl
  | .acons v rest => by
    show JArr.acons (clean_data_recursive v) (clean_arr_entries rest) = _
    rw [clean_eq_map_v v, clean_eq_map_a rest]
    rfl
theorem clean_eq_map_o : ∀ o : JObj,
    clean_obj_entries o = map_string_leaves_obj clean_text o
  | .onil => rfl
  | .ocons k v rest => by
    show JObj.ocons k (clean_data_recursive v) (clean_obj_entries rest) = _
    rw [clean_eq_map_v v, clean_eq_map_o rest]
    rfl
end

theorem obj_keys_map_string_leaves (f : String → String) : ∀ o : JObj,
    obj_keys (map_string_leaves_obj f o) = obj_keys o
  | .onil => rfl
  | .ocons k v rest => by
    show k :: obj_keys (map_string_leaves_obj f rest) = k :: obj_keys rest
    rw [obj_keys_map_string_leaves f rest]

theorem arr_len_map_string_leaves (f : String → String) : ∀ a : JArr,
    arr_len (map_string_leaves_arr f a) = arr_len a
  | .anil => rfl
  | .acons v rest => by
    show arr_len (map_string_leaves_arr f rest) + 1 = arr_len rest + 1
    rw [arr_len_map_string_leaves f rest]

/-! ### Helpers and concrete inputs for the claim statements -/

/-- The directory state after a full run (the error state is a dummy,
used only where a run is known to succeed). -/
def run_fs (r : Except Unit ((List Char → FileEntry) × List Telegram × Bool)) :
    List Char → FileEntry :=
  match r with
  | .ok p => p.1
  | .error _ => fun _ => .absent

/-- The item list a run hands to the Notifier. -/
def run_notified
    (r : Except Unit ((List Char → FileEntry) × List Telegram × Bool)) :
    List Telegram :=
  match r with
  | .ok p => p.2.1
  | .error _ => []

/-- The `has_new_content` flag of a run. -/
def run_saved
    (r : Except Unit ((List Char → FileEntry) × List Telegram × Bool)) : Bool :=
  match r with
  | .ok p => p.2.2
  | .error _ => false

/-- The full result triple of a successful run (dummy on error). -/
def run_result
    (r : Except Unit ((List Char → FileEntry) × List Telegram × Bool)) :
    (List Char → FileEntry) × List Telegram × Bool :=
  match r with
  | .ok p => p
  | .error _ => (fun _ => .absent, [], false)

/-- The directory state after a merge call. -/
def merge_fs (r : Except Unit ((List Char → FileEntry) × Bool)) :
    List Char → FileEntry :=
  match r with
  | .ok p => p.1
  | .error _ => fun _ => .absent

def file_content : FileEntry → List Char
  | .file c _ _ => c
  | .absent => []

def cx_fs0 : List Char → FileEntry := fun _ => .absent

/-- A normalized item with civil date 2023-11-15 (Beijing). -/
def cx_item : Telegram :=
  ⟨"1".toList, "aaa".toList, "06:13".toList,
   "https://www.cls.cn/detail/1".toList, false, some 1700000000⟩

def cx_today : List Char := "2023-11-16".toList

/-- C1: the pipeline run on a batch whose items all fall on the run
date: with the run date's file absent or failure-free, a second run
with the same batch filters every item out, performs no write and
leaves the whole directory untouched. -/
theorem claim_C1 {fs : List Char → FileEntry} {today : List Char}
    {batch : List Telegram}
    (hid : ∀ t ∈ batch, t.id ≠ [] ∧ t.id.all Char.isDigit = true)
    (hurl : ∀ t ∈ batch, t.url = detailBase ++ t.id)
    (hdate : ∀ t ∈ batch, item_date t = some today)
    (hfs : fs today = .absent ∨ ∃ c, fs today = .file c false false) :
    ∃ fs1 l1 b1, run_once fs today batch = .ok (fs1, l1, b1) ∧
      run_once fs1 today batch = .ok (fs1, [], false) :=
  run_once_idempotent_same_date hid hurl hdate hfs

/-- C1 witness: the theorem applied to one concrete item on its own
civil date over an empty directory. -/
theorem claim_C1_witness :
    ∃ fs1 l1 b1, run_once cx_fs0 "2023-11-15".toList [cx_item] =
        .ok (fs1, l1, b1) ∧
      run_once fs1 "2023-11-15".toList [cx_item] = .ok (fs1, [], false) :=
  claim_C1 (by decide) (by decide) (by decide) (Or.inl rfl)

/-- C1 counterexample: an item whose civil date (2023-11-15) differs
from the run date (2023-11-16) is re-appended by the second run — the
second run writes, and the item's date file is not byte-identical
after the two runs. -/
theorem claim_C1_counterexample :
    run_saved (run_once (run_fs (run_once cx_fs0 cx_today [cx_item]))
      cx_today [cx_item]) = true ∧
    file_content ((run_fs (run_once (run_fs (run_once cx_fs0 cx_today
        [cx_item])) cx_today [cx_item])) "2023-11-15".toList) ≠
      file_content ((run_fs (run_once cx_fs0 cx_today [cx_item]))
        "2023-11-15".toList) ∧
    item_date cx_item = some "2023-11-15".toList ∧
    cx_today ≠ "2023-11-15".toList := by decide

/-- C2: the list handed to the Notifier is exactly the fetched items
with a truthy id and timestamp whose id is not among the ids extracted
from the run date's file. -/
theorem claim_C2 {fs : List Char → FileEntry} {today : List Char}
    {batch : List Telegram} {e0 : List (List Char)}
    {p : (List Char → FileEntry) × List Telegram × Bool}
    (hget : get_existing_ids_for_date fs today = .ok e0)
    (hok : run_once fs today batch = .ok p) :
    ∀ t, t ∈ p.2.1 ↔ t ∈ batch ∧ t.id ≠ [] ∧ t.id ∉ e0 ∧
      ts_truthy t.timestamp_raw ≠ none := by
  intro t
  unfold run_once at hok
  rw [hget] at hok
  simp only at hok
  cases ha : append_new_telegrams fs (batch.filter (fun t =>
      decide (t.id ≠ []) && decide (t.id ∉ e0) &&
      decide (ts_truthy t.timestamp_raw ≠ none))) with
  | error e => rw [ha] at hok; cases hok
  | ok q =>
    rw [ha, Except.ok.injEq] at hok
    rw [← hok]
    simp only [List.mem_filter, Bool.and_eq_true, decide_eq_true_eq]
    tauto

/-- C2 witness: the theorem applied to a one-item batch over an empty
directory — the item is new and is handed to the Notifier. -/
theorem claim_C2_witness :
    cx_item ∈ (run_result (run_once cx_fs0 cx_today [cx_item])).2.1 :=
  (@claim_C2 cx_fs0 cx_today [cx_item] []
    (run_result (run_once cx_fs0 cx_today [cx_item])) rfl rfl cx_item).mpr
    ⟨List.mem_cons_self _ _, by decide, by decide, by decide⟩

def cx2_fs : List Char → FileEntry := fun d =>
  if d = "2023-11-15".toList then
    .file "(https://www.cls.cn/detail/5)".toList false false
  else .absent

def cx2_item : Telegram :=
  ⟨"5".toList, "eee".toList, "06:13".toList,
   "https://www.cls.cn/detail/5".toList, false, some 1700000000⟩

/-- C2 counterexample: an item whose id is already recorded in
yesterday's archive file (but not in the run date's) is still handed
to the Notifier. -/
theorem claim_C2_counterexample :
    run_notified (run_once cx2_fs cx_today [cx2_item]) = [cx2_item] ∧
    cx2_item.id ∈ scanIds (file_content (cx2_fs "2023-11-15".toList)) ∧
    cx_today ≠ "2023-11-15".toList := by decide

/-! ### C3: section ordering -/

def cx3_new : Telegram :=
  ⟨"2".toList, "bbb".toList, "06:15".toList,
   "https://www.cls.cn/detail/2".toList, false, some 1700000100⟩

def cx3_old : Telegram :=
  ⟨"3".toList, "ccc".toList, "06:13".toList,
   "https://www.cls.cn/detail/3".toList, false, some 1700000000⟩

def cx3_fs1 : List Char → FileEntry :=
  merge_fs (append_new_telegrams cx_fs0 [cx3_new])

def cx3_fs2 : List Char → FileEntry :=
  merge_fs (append_new_telegrams cx3_fs1 [cx3_old])

/-- C3: the claimed ordering holds for the merge that creates a date's
file: the file is the template with the descending-sorted flagged lines
under the flagged header (which comes first) and the descending-sorted
normal lines under the normal header, and both rendered sections are in
non-increasing timestamp order, a missing timestamp ranking as 0.
Merges into an existing file splice the new batch directly under each
header, above the older content, so the order does not persist across
runs (see the counterexample). -/
theorem claim_C3 {fs : List Char → FileEntry} {items : List Telegram}
    {D : List Char} (hne : items ≠ [])
    (hdates : ∀ t ∈ items, item_date t = some D) (habs : fs D = .absent) :
    (∃ b, append_new_telegrams fs items =
      .ok (fs_update fs D (.file (joinLines
        ([red_header, []] ++
          (((sort_desc items).filter (fun t => t.is_red)).map
            format_telegram_lines).flatten ++
          ([FILE_SEPARATOR, [], normal_header, []] ++
            (((sort_desc items).filter (fun t => !t.is_red)).map
              format_telegram_lines).flatten))) false false), b)) ∧
    ((sort_desc items).filter (fun t => t.is_red)).Pairwise
      (fun a b => b.timestamp_raw.getD 0 ≤ a.timestamp_raw.getD 0) ∧
    ((sort_desc items).filter (fun t => !t.is_red)).Pairwise
      (fun a b => b.timestamp_raw.getD 0 ≤ a.timestamp_raw.getD 0) :=
  ⟨append_fresh_file hne hdates habs,
   List.Pairwise.sublist (List.filter_sublist _) (sort_desc_sorted items),
   List.Pairwise.sublist (List.filter_sublist _) (sort_desc_sorted items)⟩

/-- C3 witness: the theorem applied to a concrete two-item batch on one
date over an empty directory. -/
theorem claim_C3_witness :
    ∃ b, append_new_telegrams cx_fs0 [cx3_new, cx3_old] =
      .ok (fs_update cx_fs0 "2023-11-15".toList (.file (joinLines
        ([red_header, []] ++
          (((sort_desc [cx3_new, cx3_old]).filter (fun t => t.is_red)).map
            format_telegram_lines).flatten ++
          ([FILE_SEPARATOR, [], normal_header, []] ++
            (((sort_desc [cx3_new, cx3_old]).filter (fun t => !t.is_red)).map
              format_telegram_lines).flatten))) false false), b) :=
  (claim_C3 (by decide) (by decide) rfl).1

/-- C3 counterexample: a later merge splices an older item above an
already-archived newer item, so within the normal section the
timestamps are not non-increasing after the second merge. -/
theorem claim_C3_counterexample :
    splitLines (file_content (cx3_fs2 "2023-11-15".toList)) =
      [red_header, [], FILE_SEPARATOR, [], normal_header, [],
       format_line cx3_old, [], format_line cx3_new, []] ∧
    cx3_old.timestamp_raw.getD 0 < cx3_new.timestamp_raw.getD 0 := by decide

/-! ### C4: url derivation for an id-less item -/

def rawNoId : RawItem := ⟨none, "x".toList, [], some 1700000000, false⟩

/-- C4: for a non-ad raw item carrying no id, the normalized url is the
detail base followed by the text `None` — `str(item.get("id"))` renders
a missing id as the truthy string `"None"`, so the guarded empty-url
branch is unreachable and the url is never the claimed empty string. -/
theorem claim_C4 {r : RawItem} (had : r.is_ad = false) (hid : r.id = none) :
    ∃ t, process_item r = some t ∧ t.url = detailBase ++ "None".toList ∧
      t.url ≠ [] := by
  unfold process_item
  rw [had, hid]
  refine ⟨_, rfl, rfl, ?_⟩
  show (detailBase ++ "None".toList) ≠ []
  decide

/-- C4 witness: the theorem applied to a concrete id-less item. -/
theorem claim_C4_witness :
    rawNoId.is_ad = false ∧ rawNoId.id = none ∧
    ∃ t, process_item rawNoId = some t ∧
      t.url = detailBase ++ "None".toList ∧ t.url ≠ [] :=
  ⟨rfl, rfl, claim_C4 rfl rfl⟩

/-! ### C5: request signature -/

/-- C5: with the two hash stages abstract, the `sign` parameter of the
request equals hash stage B applied to stage A's output on the
`key=value&...` rendering of the other parameters sorted by key; the
rendered string for the app parameters is the concrete sorted join,
`sign` itself is not among the signed parameters, and two key-value
lists equal as maps yield the same signature regardless of order. -/
theorem claim_C5 : ∀ s m : String → String,
    lookup_param (get_request_params s m) "sign" =
      some (m (s (params_string APP_PARAMS))) ∧
    params_string APP_PARAMS = "app_name=CailianpressWeb&os=web&sv=7.7.5" ∧
    lookup_param APP_PARAMS "sign" = none ∧
    (∀ p q : List (String × String),
      (p.map Prod.fst).Nodup → (q.map Prod.fst).Nodup →
      (∀ k, lookup_param p k = lookup_param q k) →
      generate_signature s m p = generate_signature s m q) := by
  intro s m
  refine ⟨rfl, rfl, rfl, ?_⟩
  intro p q hp hq h
  unfold generate_signature
  rw [params_string_ext hp hq h]

/-! ### C6: retry and failure handling -/

/-- C6: when every one of the three attempts fails (network error,
JSON decode error, or a body rejected by the response-shape guard),
`fetch_telegrams` returns the empty list after sleeping exactly the
fixed `RETRY_DELAY` between consecutive attempts — the sleep durations
are the constant delay with no random jitter. -/
theorem claim_C6 {o : Nat → ApiAttempt}
    (h : ∀ j, j < RETRY_ATTEMPTS → attemptFails (o j)) :
    fetch_telegrams o =
      ([], List.replicate (RETRY_ATTEMPTS - 1) RETRY_DELAY) :=
  fetch_aux_all_fail RETRY_ATTEMPTS 0
    (fun j hj => by rw [Nat.zero_add]; exact h j hj)

def cx6_oracle : Nat → ApiAttempt := fun _ => .jsonDecodeError

/-- C6 witness: the theorem applied to an oracle whose every attempt is
a JSON decode failure. -/
theorem claim_C6_witness :
    (∀ j, j < RETRY_ATTEMPTS → attemptFails (cx6_oracle j)) ∧
    fetch_telegrams cx6_oracle = ([], [RETRY_DELAY, RETRY_DELAY]) := by
  refine ⟨fun j hj => trivial, ?_⟩
  rw [@claim_C6 cx6_oracle (fun j hj => trivial)]
  rfl

/-- C6 counterexample to the jitter part: the sleep durations of a
fully failing run are exactly the constant `[5, 5]` — the code never
adds random jitter (`import random` is unused). -/
theorem claim_C6_counterexample :
    fetch_telegrams (fun _ => ApiAttempt.requestError) =
      ([], [RETRY_DELAY, RETRY_DELAY]) ∧ RETRY_DELAY = 5 := by decide

/-! ### C7: flagging and the sample scenario -/

def cx7_r1 : RawItem :=
  ⟨some "1".toList, "利好 A".toList, [], some 1700000000, false⟩

def cx7_r2 : RawItem :=
  ⟨some "2".toList, "B".toList, "plain".toList, some 1700000100, false⟩

def cx7_body : ApiBody := ⟨some 0, some ⟨some [cx7_r1, cx7_r2]⟩⟩

def cx7_oracle : Nat → ApiAttempt := fun _ => .parsed cx7_body

def cx7_items : List Telegram := (fetch_telegrams cx7_oracle).1

def cx7_t1 : Telegram :=
  ⟨"1".toList, "利好 A".toList, "06:13".toList,
   "https://www.cls.cn/detail/1".toList, true, some 1700000000⟩

def cx7_t2 : Telegram :=
  ⟨"2".toList, "plain".toList, "06:15".toList,
   "https://www.cls.cn/detail/2".toList, false, some 1700000100⟩

/-- C7: a normalized item is flagged exactly when some configured
keyword occurs (case-sensitively) as a substring of the title
concatenated with the content (the brief, or the title when the brief
is empty); on the sample feed the item titled `利好 A` is flagged and
the other is not, both land in the archive file of timestamp
1700000000's civil date, and that file places the flagged item's line
under the flagged header and the other under the normal header. -/
theorem claim_C7 :
    (∀ r : RawItem, ∀ t : Telegram, process_item r = some t →
      (t.is_red = true ↔ ∃ k ∈ RED_KEYWORDS,
        k <:+: (r.title ++ (if r.brief = [] then r.title else r.brief)))) ∧
    cx7_items = [cx7_t1, cx7_t2] ∧
    cx7_t1.is_red = true ∧
    cx7_t2.is_red = false ∧
    format_date_ymd 1700000000 = "2023-11-15".toList ∧
    splitLines (file_content (merge_fs
        (append_new_telegrams cx_fs0 cx7_items) "2023-11-15".toList)) =
      [red_header, [], format_line cx7_t1, [], FILE_SEPARATOR, [],
       normal_header, [], format_line cx7_t2, []] := by
  refine ⟨?_, by decide, by decide, by decide, by decide, by decide⟩
  intro r t h
  unfold process_item at h
  split at h
  · cases h
  · rw [Option.some.injEq] at h
    subst h
    show RED_KEYWORDS.any (fun k =>
      containsSub (r.title ++ (if r.brief = [] then r.title else r.brief)) k)
        = true ↔ _
    rw [List.any_eq_true]
    constructor
    · rintro ⟨k, hk, hc⟩
      exact ⟨k, hk, containsSub_iff.mp hc⟩
    · rintro ⟨k, hk, hc⟩
      exact ⟨k, hk, containsSub_iff.mpr hc⟩

/-! ### C8: per-date failure behavior -/

def cx8_t15 : Telegram :=
  ⟨"3".toList, "ccc".toList, "06:13".toList,
   "https://www.cls.cn/detail/3".toList, false, some 1700000000⟩

def cx8_t16 : Telegram :=
  ⟨"4".toList, "ddd".toList, "06:13".toList,
   "https://www.cls.cn/detail/4".toList, false, some 1700086400⟩

/-- The directory whose 2023-11-16 file rejects writes. -/
def cx8w_fs : List Char → FileEntry := fun d =>
  if d = "2023-11-16".toList then .file "old".toList false true else .absent

/-- The directory whose 2023-11-16 file rejects reads. -/
def cx8_fs : List Char → FileEntry := fun d =>
  if d = "2023-11-16".toList then .file "old".toList true false else .absent

def merge_ok : Except Unit ((List Char → FileEntry) × Bool) → Bool
  | .ok _ => true
  | .error _ => false

/-- C8: write failures are isolated — on a directory with no
read-failing entries the merge always returns normally, and in a
concrete two-date merge whose first-processed date rejects writes, that
date's file is left unchanged while the other date's file is still
written; read failures are NOT isolated (see the counterexample). -/
theorem claim_C8 :
    (∀ fs : List Char → FileEntry, ∀ items : List Telegram,
      (∀ d, (fs d).readFails = false) →
      ∃ r, append_new_telegrams fs items = .ok r) ∧
    merge_ok (append_new_telegrams cx8w_fs [cx8_t16, cx8_t15]) = true ∧
    merge_fs (append_new_telegrams cx8w_fs [cx8_t16, cx8_t15])
      "2023-11-16".toList = .file "old".toList false true ∧
    merge_fs (append_new_telegrams cx8w_fs [cx8_t16, cx8_t15])
      "2023-11-15".toList =
      .file (joinLines (templateLines ++ [format_line cx8_t15, []]))
        false false := by
  refine ⟨fun fs items h => append_ok_of_no_read_failure h items,
    by decide, by decide, by decide⟩

/-- C8 counterexample: a read failure on the first-processed date
aborts the whole merge, so the other date (absent, ready to be
created) is never written. -/
theorem claim_C8_counterexample :
    append_new_telegrams cx8_fs [cx8_t16, cx8_t15] = .error () ∧
    cx8_fs "2023-11-15".toList = .absent ∧
    item_date cx8_t15 = some "2023-11-15".toList ∧
    (cx8_fs "2023-11-16".toList).readFails = true := by
  exact ⟨rfl, rfl, rfl, rfl⟩

/-! ### C9: existing-id extraction -/

def cx9_fs : List Char → FileEntry := fun d =>
  if d = "2023-11-16".toList then
    .file "(https://wwwxclsxcn/detail/7)".toList false false
  else .absent

/-- C9: extraction returns the empty list when the date's file is
absent and otherwise the scan of the whole text; and a digit string is
collected exactly when the pattern occurs with ARBITRARY non-newline
characters at the two unescaped-dot positions — a superset of the
occurrences of the literal detail-url text. -/
theorem claim_C9 :
    (∀ fs : List Char → FileEntry, ∀ date : List Char,
      fs date = .absent → get_existing_ids_for_date fs date = .ok []) ∧
    (∀ fs : List Char → FileEntry, ∀ date c : List Char,
      fs date = .file c false false →
      get_existing_ids_for_date fs date = .ok (scanIds c)) ∧
    (∀ c d : List Char, d ∈ scanIds c ↔
      ∃ pre c1 c2 post, c = pre ++ patIds c1 c2 d ++ post ∧ d ≠ [] ∧
        d.all Char.isDigit = true ∧ c1 ≠ '\n' ∧ c2 ≠ '\n') := by
  refine ⟨?_, ?_, ?_⟩
  · intro fs date h
    unfold get_existing_ids_for_date
    rw [h]
  · intro fs date c h
    unfold get_existing_ids_for_date
    rw [h]
  · intro c d
    constructor
    · exact scanIds_sound
    · rintro ⟨pre, c1, c2, post, heq, hd, hdig, h1, h2⟩
      subst heq
      exact scanIds_complete hd hdig h1 h2

/-- C9 counterexample: a file whose text replaces the dots of the
detail url by `x` still yields the id `7`, although the literal detail
text does not occur in it. -/
theorem claim_C9_counterexample :
    get_existing_ids_for_date cx9_fs "2023-11-16".toList =
      .ok ["7".toList] ∧
    containsSub "(https://wwwxclsxcn/detail/7)".toList
      "(https://www.cls.cn/detail/7)".toList = false :=
  ⟨rfl, by decide⟩

/-! ### C10: structure-preserving cleaning -/

/-- C10: cleaning is exactly the structure-preserving map that rewrites
the string leaves by `clean_text`: dict nodes keep exactly their keys
in order, list nodes keep their length and order, null, boolean and
numeric leaves are returned unchanged, and a string leaf becomes its
cleaned text. -/
theorem claim_C10 :
    (∀ v : JValue, clean_data_recursive v = map_string_leaves clean_text v) ∧
    (∀ o : JObj, obj_keys (clean_obj_entries o) = obj_keys o) ∧
    (∀ a : JArr, arr_len (clean_arr_entries a) = arr_len a) ∧
    clean_data_recursive JValue.jnull = JValue.jnull ∧
    (∀ b : Bool, clean_data_recursive (JValue.jbool b) = JValue.jbool b) ∧
    (∀ n : Int, clean_data_recursive (JValue.jnum n) = JValue.jnum n) ∧
    (∀ s : String,
      clean_data_recursive (JValue.jstr s) = JValue.jstr (clean_text s)) := by
  refine ⟨clean_eq_map_v, ?_, ?_, rfl, fun b => rfl, fun n => rfl,
    fun s => rfl⟩
  · intro o
    rw [clean_eq_map_o o]
    exact obj_keys_map_string_leaves clean_text o
  · intro a
    rw [clean_eq_map_a a]
    exact arr_len_map_string_leaves clean_text a
